import Mathlib

/-!
# Verification of the semantic vector analysis engine of `aegisdb-panel`

This file shallowly embeds the algorithmic core of
`src/pages/ConfigMgmt.tsx` (the "graph" view engine): the embedding
validator `extractValidEmbeddings`, the clustering strategies `runKMeans`,
`runAgglomerative`, `runDbscan`, the aggregator `clusterInsights`, and the
2-D projector `projectTo2D` with its inner `powerIteration`.

Modelling conventions:

* JavaScript numbers are modelled as exact rationals (`ℚ`) in the
  clustering engine, which performs no square roots except inside
  comparisons: `Math.sqrt` is strictly monotone on nonnegative reals, so
  `sqrt a < sqrt b ↔ a < b` and `sqrt a ≤ eps ↔ 0 ≤ eps ∧ a ≤ eps ^ 2`;
  the comparisons are embedded through those exact equivalences.
* The projector and the agglomerative linkage compare genuine square
  roots, so they are modelled over `ℝ` (classically, hence a
  `noncomputable section` for those definitions).
* `Math.random()` is an ambient impure source; it is embedded as an
  explicit stream `ℕ → ℝ` threaded into `projectTo2D`, consumed in draw
  order (the source draws `dimension` values per `powerIteration` call).
* The seeded generator `createSeededRandom` is an exact 32-bit xorshift,
  embedded on `ℕ` with explicit `% 2 ^ 32` reductions; JavaScript's
  arithmetic right shift `>> 17` on a negative 32-bit value is embedded
  by setting the sign-extension bits.
-/

set_option maxRecDepth 4000

namespace AegisPanel

/-- A vector of the normalised matrix: finite JS numbers as exact rationals. -/
abbrev Vec := List ℚ

/-- One step of `createSeededRandom`'s xorshift on the 32-bit state.
`s >> 17` in JS reinterprets the unsigned state as `Int32` and shifts
arithmetically; for `s ≥ 2 ^ 31` the shifted bit pattern is
`(s >>> 17) + (2 ^ 32 - 2 ^ 15)` (sign extension). -/
def xorshift (s : ℕ) : ℕ :=
  let a := (s ^^^ ((s <<< 13) % 2 ^ 32)) % 2 ^ 32
  let sh := if a < 2 ^ 31 then a >>> 17 else (a >>> 17) + (2 ^ 32 - 2 ^ 15)
  let b := (a ^^^ sh) % 2 ^ 32
  (b ^^^ ((b <<< 5) % 2 ^ 32)) % 2 ^ 32

/-- The value returned by one call of the seeded generator with state `s`
after stepping: `(s & 0xffffffff) / 0x100000000`. -/
def randQ (s : ℕ) : ℚ := (s : ℚ) / 2 ^ 32

/-- One entry of a raw embedding array, as seen through `Number(value)`:
`some q` when the coercion is the finite number `q`, `none` when it is
`NaN` or `±∞` (e.g. a non-numeric string).  `Number.isFinite(num) ? num : 0`
is then `Option.getD · 0`. -/
abbrev RawEntry := Option ℚ

/-- A record as consumed by the engine.  `embedding = none` models a
missing / non-array embedding; metadata fields other than the embedding are
never read by the clustering functions and are omitted here. -/
structure SemanticNode where
  key : ℕ
  embedding : Option (List RawEntry)
deriving DecidableEq

/-- Squared Euclidean distance, iterating over the indices of `a` exactly
like `euclideanDistance` (whose result is squared or compared wherever it is
used); `b.getD i 0` matches the all-equal-length usage of the source. -/
def sqDist (a b : Vec) : ℚ :=
  ∑ i ∈ Finset.range a.length, (a.getD i 0 - b.getD i 0) ^ 2

/-- The body of the `extractValidEmbeddings` loop over `(index, record)`
pairs, threading the mutable `dimension` (0 until the first valid embedding
fixes it).  In the source, after `Number`-coercion every entry is finite, so
the `.filter(Number.isFinite)` keeps all entries, the
`normalized.length === 0` re-check and the second `dimension === 0` check
are unreachable, and the final `vector.every(Number.isFinite)` guard always
passes; those dead branches have no counterpart here. -/
def evGo : List (ℕ × SemanticNode) → ℕ → List ℕ × List Vec × ℕ
  | [], dim => ([], [], dim)
  | (idx, item) :: rest, dim =>
    match item.embedding with
    | none => evGo rest dim
    | some emb =>
      if emb = [] then evGo rest dim
      else
        let normalized : List ℚ := emb.map (fun e => e.getD 0)
        let dim' := if dim = 0 then normalized.length else dim
        let vector :=
          if normalized.length = dim' then normalized
          else (List.range dim').map (fun i => normalized.getD i 0)
        let r := evGo rest dim'
        (idx :: r.1, vector :: r.2.1, r.2.2)

/-- `extractValidEmbeddings`: returns `(indices, vectors, dimension)`. -/
def extractValidEmbeddings (data : List SemanticNode) : List ℕ × List Vec × ℕ :=
  evGo data.enum 0

/-- The nearest-centroid scan of `runKMeans`: `bestDistance` starts at
`Infinity`, so the first centroid is always taken, and the strict `<` on
Euclidean distances (equivalently on squared distances) keeps the
first-encountered minimum. -/
def nearestGo (v : Vec) : List Vec → ℕ → ℕ → ℚ → ℕ
  | [], _, best, _ => best
  | c :: cs, i, best, bestD =>
    if sqDist v c < bestD then nearestGo v cs (i + 1) i (sqDist v c)
    else nearestGo v cs (i + 1) best bestD

/-- Index of the nearest centroid to `v` (0 on an empty centroid list,
which the source never reaches). -/
def nearestCluster (cents : List Vec) (v : Vec) : ℕ :=
  match cents with
  | [] => 0
  | c :: cs => nearestGo v cs 1 0 (sqDist v c)

/-- The assignment pass of one K-Means iteration. -/
def assignLabels (vs : List Vec) (cents : List Vec) : List ℕ :=
  vs.map (nearestCluster cents)

/-- The centroid-update pass: each centroid with at least one assigned row
becomes the componentwise mean of its rows (the source accumulates
`sums`/`counts`; summing the rows whose label equals the cluster index is
the same quantity), empty clusters keep their centroid. -/
def updateCentroids (vs : List Vec) (labels : List ℕ) (cents : List Vec) (d : ℕ) :
    List Vec :=
  cents.enum.map (fun p =>
    let members := ((vs.zip labels).filter (fun q => q.2 = p.1)).map (fun q => q.1)
    if members.length = 0 then p.2
    else (List.range d).map (fun j =>
      (members.map (fun w => w.getD j 0)).sum / (members.length : ℚ)))

/-- The `for (; iterations < maxIterations; ...)` loop of `runKMeans`:
assign, break (without incrementing) if nothing changed, else update and
continue.  Returns `(labels, centroids, iterations)`. -/
def kmeansLoop (vs : List Vec) (d : ℕ) :
    ℕ → List ℕ → List Vec → ℕ → List ℕ × List Vec × ℕ
  | 0, labels, cents, iters => (labels, cents, iters)
  | fuel + 1, labels, cents, iters =>
    let labels' := assignLabels vs cents
    if labels' = labels then (labels, cents, iters)
    else kmeansLoop vs d fuel labels' (updateCentroids vs labels' cents d) (iters + 1)

/-- The seeded initial-centroid draw of `runKMeans`: up to
`maxAttempts` passes of `index = Math.floor(rand() * vectors.length)`,
skipping already-used indices; the `!Array.isArray(candidate) ||
candidate.length === 0` re-check only rejects empty candidates.  `fuel`
counts the remaining attempts (`safetyCounter` distance to `maxAttempts`). -/
def pickGo (vecs : List Vec) (target : ℤ) :
    ℕ → ℕ → List ℕ → List Vec → List Vec
  | 0, _, _, cents => cents
  | fuel + 1, s, used, cents =>
    if (cents.length : ℤ) < target then
      let s' := xorshift s
      let index := (⌊randQ s' * (vecs.length : ℚ)⌋).toNat
      if index ∈ used then pickGo vecs target fuel s' used cents
      else
        let candidate := vecs.getD index []
        if candidate = [] then pickGo vecs target fuel s' (index :: used) cents
        else pickGo vecs target fuel s' (index :: used) (cents ++ [candidate])
    else cents

/-- `fullLabels`: an all-`-1` array of the input length, then
`fullLabels[indices[vi]] = labels[vi]` for each matrix row `vi`. -/
def buildFullLabels (total : ℕ) (indices : List ℕ) (labels : List ℤ) : List ℤ :=
  ((indices.zip labels).foldl (fun acc p => acc.set p.1 p.2)
    (List.replicate total (-1)))

/-- The inertia of an assignment: sum over rows of the squared distance to
the assigned centroid (`euclideanDistance(...) ** 2` is exactly `sqDist`). -/
def inertiaOf (vs : List Vec) (labels : List ℕ) (cents : List Vec) : ℚ :=
  ((vs.zip labels).map (fun p => sqDist p.1 (cents.getD p.2 []))).sum

/-- `Number(x.toFixed(3))` for a nonnegative number: round half away from
zero at the third decimal, which for `x ≥ 0` is `⌊1000 x + 1/2⌋ / 1000`. -/
def roundTo3 (q : ℚ) : ℚ := (⌊q * 1000 + 1 / 2⌋ : ℚ) / 1000

/-- The result record of the clustering strategies. -/
structure ClusteringResult where
  labels : List ℤ
  centroids : List Vec
  iterations : Option ℕ := none
  inertia : Option ℚ := none
  noiseCount : Option ℕ := none
deriving DecidableEq

/-- `runKMeans(data, k, maxIterations = 40)`. -/
def runKMeans (data : List SemanticNode) (k : ℤ) (maxIterations : ℕ := 40) :
    ClusteringResult :=
  if data = [] then ⟨[], [], some 0, some 0, none⟩
  else
    let e := extractValidEmbeddings data
    let indices := e.1
    let vectors := e.2.1
    let dimension := e.2.2
    if vectors = [] ∨ dimension = 0 then
      ⟨List.replicate data.length (-1), [], some 0, some 0, none⟩
    else
      let targetCentroids := min k (vectors.length : ℤ)
      let maxAttempts := if targetCentroids = 0 then 0 else vectors.length * 4
      let cents0 := pickGo vectors targetCentroids maxAttempts 1993 [] []
      if cents0 = [] then
        ⟨List.replicate data.length (-1), [], some 0, some 0, none⟩
      else
        let r := kmeansLoop vectors dimension maxIterations
          (List.replicate vectors.length 0) cents0 0
        let inertia := inertiaOf vectors r.1 r.2.1
        ⟨buildFullLabels data.length indices (r.1.map (fun l : ℕ => (l : ℤ))),
          r.2.1, some r.2.2, some (roundTo3 inertia), none⟩

/-- `euclideanDistance(a, b) <= eps` through exact real arithmetic:
`Real.sqrt (sqDist a b) ≤ eps ↔ 0 ≤ eps ∧ sqDist a b ≤ eps ^ 2`
(for `eps < 0` no point is within reach, the point itself included). -/
def withinEps (a b : Vec) (eps : ℚ) : Bool :=
  decide (0 ≤ eps) && decide (sqDist a b ≤ eps ^ 2)

/-- `regionQuery(pointIdx)`: indices of all rows within `eps`. -/
def regionQuery (vectors : List Vec) (eps : ℚ) (p : ℕ) : List ℕ :=
  (List.range vectors.length).filter (fun i =>
    withinEps (vectors.getD p []) (vectors.getD i []) eps)

/-- The seed-stack expansion of one DBSCAN cluster.  The JS array is used
as a stack (`pop` takes the last element, pushes append); it is embedded
head-first, i.e. reversed, so `pop` is pattern matching on the head and a
push is a `::` — the `seeds.includes` membership test is order-independent.
`fuel` bounds the number of pops: each pop removes one element and only a
newly-visited core point pushes (at most `n` neighbours), so
`n * n + n + 1` pops can never be exhausted before the stack empties. -/
def dbscanExpand (vectors : List Vec) (eps : ℚ) (minPts : ℤ) (cid : ℤ) :
    ℕ → List ℕ → List ℤ × List Bool → List ℤ × List Bool
  | 0, _, st => st
  | _ + 1, [], st => st
  | fuel + 1, current :: rest, (labels, visited) =>
    if visited.getD current false then
      let labels' := if labels.getD current 0 = -1 then labels.set current cid
        else labels
      dbscanExpand vectors eps minPts cid fuel rest (labels', visited)
    else
      let visited' := visited.set current true
      let currentNeighbors := regionQuery vectors eps current
      let seeds' :=
        if minPts ≤ (currentNeighbors.length : ℤ) then
          currentNeighbors.foldl (fun acc nb =>
            if nb ∈ acc then acc else nb :: acc) rest
        else rest
      let labels' := if labels.getD current 0 = -1 then labels.set current cid
        else labels
      dbscanExpand vectors eps minPts cid fuel seeds' (labels', visited')

/-- The outer DBSCAN loop over row indices, threading
`(labels, visited, clusterId)`. -/
def dbscanOuter (vectors : List Vec) (eps : ℚ) (minPts : ℤ) :
    List ℕ → List ℤ × List Bool × ℤ → List ℤ × List Bool × ℤ
  | [], st => st
  | i :: rest, (labels, visited, cid) =>
    if visited.getD i false then dbscanOuter vectors eps minPts rest (labels, visited, cid)
    else
      let visited' := visited.set i true
      let neighbors := regionQuery vectors eps i
      if (neighbors.length : ℤ) < minPts then
        dbscanOuter vectors eps minPts rest (labels.set i (-1), visited', cid)
      else
        let n := vectors.length
        let st := dbscanExpand vectors eps minPts cid (n * n + n + 1)
          neighbors.reverse (labels.set i cid, visited')
        dbscanOuter vectors eps minPts rest (st.1, st.2, cid + 1)

/-- The post-pass collecting one centroid (mean of members) per discovered
cluster id, skipping member-less ids (which do not occur). -/
def dbscanCentroids (vectors : List Vec) (d : ℕ) (labels : List ℤ) (cid : ℕ) :
    List Vec :=
  (List.range cid).foldl (fun acc (c : ℕ) =>
    let members := (List.range vectors.length).filter
      (fun i => labels.getD i 0 = (c : ℤ))
    if members = [] then acc
    else acc ++ [(List.range d).map (fun j =>
      (members.map (fun i => (vectors.getD i []).getD j 0)).sum /
        (members.length : ℚ))]) []

/-- `runDbscan(data, eps, minPts)`. -/
def runDbscan (data : List SemanticNode) (eps : ℚ) (minPts : ℤ) :
    ClusteringResult :=
  if data = [] then ⟨[], [], none, none, some 0⟩
  else
    let e := extractValidEmbeddings data
    let indices := e.1
    let vectors := e.2.1
    let dimension := e.2.2
    if vectors = [] ∨ dimension = 0 then
      ⟨List.replicate data.length (-1), [], none, none, some data.length⟩
    else
      let n := vectors.length
      let st := dbscanOuter vectors eps minPts (List.range n)
        (List.replicate n (-1), List.replicate n false, 0)
      let labels := st.1
      let cid := st.2.2
      let centroids := dbscanCentroids vectors dimension labels cid.toNat
      let fullLabels := buildFullLabels data.length indices labels
      ⟨fullLabels, centroids, none, none, some (fullLabels.count (-1))⟩

/-- An enriched record as consumed by the `clusterInsights` aggregator.
The projected coordinates `x`, `y` are never read by the aggregator and are
omitted; the display metadata is kept abstractly (`region` tags and `key`
identifiers as naturals, the Chinese display strings are derived data). -/
structure ProjectedNode where
  key : ℕ
  region : ℕ
  volatility : ℚ
  velocity : ℚ
  clusterId : ℤ
deriving DecidableEq

/-- One `ClusterInsight` row.  The `label` display string (`"噪声点"` /
`` `簇 ${id+1}` ``) is a function of `id` and is not modelled. -/
structure ClusterInsight where
  id : ℤ
  size : ℕ
  avgVolatility : ℚ
  avgVelocity : ℚ
  topRegions : List ℕ
  sampleKeys : List ℕ
deriving DecidableEq

/-- `Number(value.toFixed(digits))` for nonnegative values, digits = 3
(`formatNumber(·, 3)`). -/
def formatNumber3 (q : ℚ) : ℚ := roundTo3 q

/-- Push `x` onto the bucket of its key in an insertion-ordered
association list (the iteration order of a JS `Map`): an existing key keeps
its position and appends, a new key is appended at the end. -/
def pushBucket (gs : List (ℤ × List ProjectedNode)) (x : ProjectedNode) :
    List (ℤ × List ProjectedNode) :=
  if gs.any (fun g => g.1 = x.clusterId) then
    gs.map (fun g => if g.1 = x.clusterId then (g.1, g.2 ++ [x]) else g)
  else gs ++ [(x.clusterId, [x])]

/-- The `grouped` map of `clusterInsights`, in first-occurrence key order. -/
def groupByCluster (nodes : List ProjectedNode) : List (ℤ × List ProjectedNode) :=
  nodes.foldl pushBucket []

/-- Insertion-ordered tally of `region` values (`regionCount` accumulated
into a JS object whose non-numeric string keys iterate in insertion
order). -/
def regionCounts (nodes : List ProjectedNode) : List (ℕ × ℕ) :=
  nodes.foldl (fun acc nd =>
    if acc.any (fun g => g.1 = nd.region) then
      acc.map (fun g => if g.1 = nd.region then (g.1, g.2 + 1) else g)
    else acc ++ [(nd.region, 1)]) []

/-- A stable insertion sort with respect to a `Bool` "strictly before"
test: the inserted element passes exactly the elements that strictly
precede it, so elements that tie keep their original order.  JS
`Array.prototype.sort` is stable, so any stable sort with the same
comparator computes the same list. -/
def stableInsert (before : α → α → Bool) (x : α) : List α → List α
  | [] => [x]
  | y :: ys => if before y x then y :: stableInsert before x ys else x :: y :: ys

/-- Stable sort by repeated insertion (stable counterpart of the source's
`Array.prototype.sort`). -/
def stableSort (before : α → α → Bool) : List α → List α
  | [] => []
  | x :: xs => stableInsert before x (stableSort before xs)

/-- The insight of one bucket `(clusterId, nodes)`. -/
def insightOf (g : ℤ × List ProjectedNode) : ClusterInsight :=
  let nodes := g.2
  let avgVolatility := (nodes.map (fun nd => nd.volatility)).sum /
    (if nodes.length = 0 then 1 else (nodes.length : ℚ))
  let avgVelocity := (nodes.map (fun nd => nd.velocity)).sum /
    (if nodes.length = 0 then 1 else (nodes.length : ℚ))
  let topRegions := ((stableSort (fun a b => b.2 < a.2) (regionCounts nodes)).take 2).map
    (fun p => p.1)
  ⟨g.1, nodes.length, formatNumber3 avgVolatility, formatNumber3 avgVelocity,
    topRegions, (nodes.take 4).map (fun nd => nd.key)⟩

/-- `clusterInsights`: one insight per bucket, then
`insights.sort((a, b) => b.size - a.size)` (stable, descending by size). -/
def clusterInsights (nodes : List ProjectedNode) : List ClusterInsight :=
  stableSort (fun a b => b.size < a.size) ((groupByCluster nodes).map insightOf)

/-! ## Real-valued part: `projectTo2D` and `runAgglomerative`

These compare or normalise by genuine square roots, so they are embedded
over `ℝ` (classically). -/

noncomputable section

/-- A record as consumed by `projectTo2D`, through its declared TypeScript
type `embedding: number[]` (the projector performs no runtime
validation).  JavaScript reads of indices past a row's end yield
`undefined`/`NaN`; the embedding replaces such reads by `0`, which agrees
with the source on every batch whose rows are at most as long as the first
row — all value-level claims are evaluated on equal-length batches, and the
shape-level facts below are independent of entry values. -/
structure PNode where
  embedding : List ℝ

instance : Inhabited PNode := ⟨⟨[]⟩⟩

/-- `dotProduct(vecA, vecB)`: iterates over `vecA`, `vecB[idx] ?? 0`. -/
def dotP (a b : List ℝ) : ℝ :=
  ((a.enum).map (fun p => p.2 * b.getD p.1 0)).sum

/-- Sum of squared entries (the square of the Euclidean norm). -/
def normSq (v : List ℝ) : ℝ := (v.map (fun x => x ^ 2)).sum

/-- The `normalize` closure of `powerIteration`:
`norm = Math.sqrt(Σ v_i²) || 1` (the `|| 1` guard replaces a zero norm by
`1`, leaving a zero vector unchanged), then divide every entry. -/
def normalizeVec (v : List ℝ) : List ℝ :=
  let n := Real.sqrt (normSq v)
  let n' := if n = 0 then 1 else n
  v.map (fun x => x / n')

/-- `next[i] = Σ_{j < matrix.length} matrix[i][j] * vector[j]`. -/
def matVec (m : List (List ℝ)) (v : List ℝ) : List ℝ :=
  m.map (fun row =>
    ((List.range m.length).map (fun j => row.getD j 0 * v.getD j 0)).sum)

/-- The per-iteration Gram–Schmidt deflation against the previously found
basis vectors. -/
def deflate (bases : List (List ℝ)) (next : List ℝ) : List ℝ :=
  bases.foldl (fun nx basis =>
    let d := ((nx.enum).map (fun p => p.2 * basis.getD p.1 0)).sum
    (nx.enum).map (fun p => p.2 - d * basis.getD p.1 0)) next

/-- One iteration of the `powerIteration` loop: multiply, deflate,
renormalise. -/
def piStep (m : List (List ℝ)) (bases : List (List ℝ)) (v : List ℝ) : List ℝ :=
  normalizeVec (deflate bases (matVec m v))

/-- `powerIteration(matrix, orthogonalTo, iterations)`, with the initial
`Math.random()` draws supplied as `init`: normalise the start vector, then
iterate.  Returns the eigenvector; the `eigenvalue` the source also returns
is `piEigenvalue` below (its caller discards it). -/
def piRun (m : List (List ℝ)) (bases : List (List ℝ)) (init : List ℝ)
    (iterations : ℕ) : List ℝ :=
  (piStep m bases)^[iterations] (normalizeVec init)

/-- The Rayleigh-quotient eigenvalue the source computes on the returned
vector. -/
def piEigenvalue (m : List (List ℝ)) (v : List ℝ) : ℝ :=
  ((v.enum).map (fun p => p.2 * dotP (m.getD p.1 []) v)).sum

/-- The dimensionality `projectTo2D` works with: the length of the first
record's embedding. -/
def dimOf (data : List PNode) : ℕ := (data.headI).embedding.length

/-- The per-dimension mean vector (rows shorter than `d` simply do not
contribute to the dimensions they lack, as in the source's `forEach`). -/
def meanOf (data : List PNode) (d : ℕ) : List ℝ :=
  (List.range d).map (fun j =>
    (data.map (fun nd => nd.embedding.getD j 0)).sum / (data.length : ℝ))

/-- Centred rows: each row subtracts the mean over its own indices. -/
def centeredOf (data : List PNode) (mean : List ℝ) : List (List ℝ) :=
  data.map (fun nd => (nd.embedding.enum).map (fun p => p.2 - mean.getD p.1 0))

/-- The `d × d` covariance matrix, divided by `data.length - 1 || 1`; the
source fills the upper triangle and mirrors it, which yields exactly this
symmetric formula. -/
def covOf (centered : List (List ℝ)) (d : ℕ) (n : ℕ) : List (List ℝ) :=
  (List.range d).map (fun i => (List.range d).map (fun j =>
    (centered.map (fun v => v.getD i 0 * v.getD j 0)).sum /
      (if n - 1 = 0 then 1 else ((n : ℝ) - 1))))

/-- `projectTo2D` given the two initial draw vectors (the source draws them
inline from `Math.random()`). -/
def projectCore (data : List PNode) (init1 init2 : List ℝ) :
    List (List ℝ) × List (ℝ × ℝ) :=
  match data with
  | [] => ([], [])
  | _ :: _ =>
    let d := dimOf data
    let mean := meanOf data d
    let centered := centeredOf data mean
    let covariance := covOf centered d data.length
    let first := piRun covariance [] init1 120
    let second := piRun covariance [first] init2 120
    ([first, second],
      centered.map (fun v => (dotP v first, dotP v second)))

/-- `projectTo2D(data)` with the ambient `Math.random()` embedded as the
stream `rnd`: the first `powerIteration` call draws
`rnd 0, …, rnd (d-1)`, the second draws `rnd d, …, rnd (2d-1)`. -/
def projectTo2D (data : List PNode) (rnd : ℕ → ℝ) :
    List (List ℝ) × List (ℝ × ℝ) :=
  projectCore data
    ((List.range (dimOf data)).map rnd)
    ((List.range (dimOf data)).map (fun i => rnd (dimOf data + i)))

/-- The average-linkage distance between two clusters of row indices:
mean Euclidean (square-root) distance over all member pairs.  The source's
`distanceCache` is a memoisation keyed by the member-index sequences and
the distance is a function of those sequences, so the cache is
semantically transparent and not modelled. -/
def clusterDistance (vectors : List Vec) (ca cb : List ℕ) : ℝ :=
  let s := ((ca.map (fun ia => (cb.map (fun ib =>
    Real.sqrt ((sqDist (vectors.getD ia []) (vectors.getD ib [])) : ℝ))).sum)).sum)
  let count := ca.length * cb.length
  s / (if count = 0 then 1 else (count : ℝ))

/-- All index pairs `i < j` over `n` clusters, in the scan order of the
source's double loop. -/
def pairList (n : ℕ) : List (ℕ × ℕ) :=
  (List.range n).flatMap (fun i => ((List.range n).drop (i + 1)).map (fun j => (i, j)))

/-- The scan for the closest pair: `bestI = 0`, `bestJ = 1`,
`bestDistance = Infinity` (`none`), updated on strictly smaller distance. -/
def findBestPair (vectors : List Vec) (cl : List (List ℕ)) : ℕ × ℕ :=
  let st := (pairList cl.length).foldl (fun st p =>
    let d := clusterDistance vectors (cl.getD p.1 []) (cl.getD p.2 [])
    match st.2 with
    | none => ((p.1, p.2), some d)
    | some b => if d < b then ((p.1, p.2), some d) else st)
    ((0, 1), (none : Option ℝ))
  st.1

/-- The merge loop of `runAgglomerative`: while more than `target` clusters
remain, merge the closest pair (`splice(bestJ, 1)` then
`splice(bestI, 1, merged)`, with `bestI < bestJ`).  Each merge removes one
cluster, so the initial cluster count is sufficient fuel. -/
def mergeLoop (vectors : List Vec) (target : ℤ) :
    ℕ → List (List ℕ) → List (List ℕ)
  | 0, cl => cl
  | fuel + 1, cl =>
    if target < (cl.length : ℤ) then
      let p := findBestPair vectors cl
      let merged := cl.getD p.1 [] ++ cl.getD p.2 []
      mergeLoop vectors target fuel ((cl.eraseIdx p.2).set p.1 merged)
    else cl

/-- The final labelling: `labels` starts as zeros and every member of
cluster `ci` is set to `ci`. -/
def agglomLabels (n : ℕ) (clusters : List (List ℕ)) : List ℤ :=
  (clusters.enum).foldl (fun acc p =>
    p.2.foldl (fun acc2 idx => acc2.set idx (p.1 : ℤ)) acc)
    (List.replicate n 0)

/-- Componentwise mean of a cluster's member vectors. -/
def clusterCentroid (vectors : List Vec) (d : ℕ) (cluster : List ℕ) : Vec :=
  (List.range d).map (fun j =>
    (cluster.map (fun idx => (vectors.getD idx []).getD j 0)).sum /
      (cluster.length : ℚ))

/-- `runAgglomerative(data, targetClusters)`. -/
def runAgglomerative (data : List SemanticNode) (target : ℤ) :
    ClusteringResult :=
  if data = [] then ⟨[], [], none, none, none⟩
  else
    let e := extractValidEmbeddings data
    let indices := e.1
    let vectors := e.2.1
    let dimension := e.2.2
    if vectors = [] ∨ dimension = 0 then
      ⟨List.replicate data.length (-1), [], none, none, none⟩
    else if target < 1 then
      ⟨List.replicate data.length (-1), [], none, none, none⟩
    else
      let clusters0 := (List.range vectors.length).map (fun i => [i])
      let clusters := mergeLoop vectors target vectors.length clusters0
      let labels := agglomLabels vectors.length clusters
      let centroids := clusters.map (clusterCentroid vectors dimension)
      ⟨buildFullLabels data.length indices labels, centroids, none, none, none⟩

end

/-! ## Shared helpers for the claims -/

/-- A record with the given finite numeric embedding. -/
def mkNode (k : ℕ) (l : List ℚ) : SemanticNode := ⟨k, some (l.map some)⟩

theorem set_replicate_self (n i : ℕ) (x : α) :
    (List.replicate n x).set i x = List.replicate n x := by
  induction n generalizing i with
  | zero => rfl
  | succ m ih =>
    cases i with
    | zero => simp [List.replicate_succ]
    | succ j => simp [List.replicate_succ, ih]

theorem withinEps_neg {a b : Vec} {eps : ℚ} (h : eps < 0) :
    withinEps a b eps = false := by
  simp [withinEps, not_le.mpr h]

theorem regionQuery_neg {vectors : List Vec} {eps : ℚ} (h : eps < 0) (p : ℕ) :
    regionQuery vectors eps p = [] := by
  simp [regionQuery, List.filter_eq_nil_iff, withinEps_neg h]

theorem dbscanOuter_neg (vectors : List Vec) {eps : ℚ} {minPts : ℤ}
    (heps : eps < 0) (hmin : 1 ≤ minPts) (n : ℕ) :
    ∀ (idxs : List ℕ) (visited : List Bool) (cid : ℤ),
      (dbscanOuter vectors eps minPts idxs
          (List.replicate n (-1), visited, cid)).1 = List.replicate n (-1) ∧
        (dbscanOuter vectors eps minPts idxs
          (List.replicate n (-1), visited, cid)).2.2 = cid := by
  intro idxs
  induction idxs with
  | nil => intro visited cid; exact ⟨rfl, rfl⟩
  | cons i rest ih =>
    intro visited cid
    by_cases hv : visited.getD i false
    · simp only [dbscanOuter, hv, if_true]
      exact ih visited cid
    · have hq : regionQuery vectors eps i = [] := regionQuery_neg heps i
      have hlt : ((regionQuery vectors eps i).length : ℤ) < minPts := by
        rw [hq]; simpa using lt_of_lt_of_le Int.zero_lt_one hmin
      simp only [dbscanOuter, hv, if_false, hlt, if_true,
        set_replicate_self]
      exact ih (visited.set i true) cid

theorem buildFullLabels_all_noise (total : ℕ) (indices : List ℕ)
    (labels : List ℤ) (h : ∀ l ∈ labels, l = -1) :
    buildFullLabels total indices labels = List.replicate total (-1) := by
  unfold buildFullLabels
  have key : ∀ (ps : List (ℕ × ℤ)), (∀ p ∈ ps, p.2 = -1) →
      ps.foldl (fun acc p => acc.set p.1 p.2) (List.replicate total (-1))
        = List.replicate total (-1) := by
    intro ps
    induction ps with
    | nil => intro _; rfl
    | cons q qs ih =>
      intro hq
      have h2 : q.2 = -1 := hq q (List.mem_cons_self _ _)
      simp only [List.foldl_cons, h2, set_replicate_self]
      exact ih (fun p hp => hq p (List.mem_cons_of_mem _ hp))
  refine key _ ?_
  intro p hp
  exact h p.2 (List.of_mem_zip hp).2

/-! ## C1 — DBSCAN with non-positive `eps` / `minPts` -/

/-- C1, counterexample: the claim says `minPts ≤ 0` yields an all-noise
result (`labels = [-1]`, `noiseCount = 1`), but on the single-record batch
`[[0]]` with `eps = 1, minPts = 0` the code's neighbourhood check
`neighbors.length < minPts` is false for every point, so the row is
clustered: label `0` and `noiseCount = 0`. -/
theorem runDbscan_minPts_zero_not_noise_counterexample :
    (runDbscan [mkNode 7 [0]] 1 0).labels = [0] ∧
      (runDbscan [mkNode 7 [0]] 1 0).noiseCount = some 0 := by
  constructor <;> with_unfolding_all decide

/-- C1, amended: only a strictly negative `eps` together with a positive
`minPts` yields the all-noise result: every row is labelled `-1` and
`noiseCount` equals the number of input rows.  (With `minPts ≤ 0` every
point qualifies as a core point instead, and with `eps = 0` a point's own
neighbourhood already contains it.) -/
theorem runDbscan_negative_eps_all_noise (data : List SemanticNode)
    (eps : ℚ) (minPts : ℤ) (heps : eps < 0) (hmin : 1 ≤ minPts) :
    (runDbscan data eps minPts).labels = List.replicate data.length (-1) ∧
      (runDbscan data eps minPts).noiseCount = some data.length := by
  unfold runDbscan
  by_cases hd : data = []
  · subst hd; simp
  · rw [if_neg hd]
    by_cases hv : (extractValidEmbeddings data).2.1 = [] ∨
        (extractValidEmbeddings data).2.2 = 0
    · constructor <;> simp [hv]
    · have houter := dbscanOuter_neg (extractValidEmbeddings data).2.1 heps hmin
        (extractValidEmbeddings data).2.1.length
        (List.range (extractValidEmbeddings data).2.1.length)
        (List.replicate (extractValidEmbeddings data).2.1.length false) 0
      have hfull : buildFullLabels data.length (extractValidEmbeddings data).1
          (List.replicate (extractValidEmbeddings data).2.1.length (-1))
          = List.replicate data.length (-1) :=
        buildFullLabels_all_noise _ _ _ (fun l hl => List.eq_of_mem_replicate hl)
      simp only [hv, if_false, houter.1, houter.2, hfull]
      constructor
      · trivial
      · simp [List.count_replicate]

/-- C1 witness: the amended theorem applied at
`data = [[0], [100]]`, `eps = -1`, `minPts = 2`. -/
theorem runDbscan_negative_eps_all_noise_witness :
    (runDbscan [mkNode 0 [0], mkNode 1 [100]] (-1) 2).labels
        = List.replicate 2 (-1) ∧
      (runDbscan [mkNode 0 [0], mkNode 1 [100]] (-1) 2).noiseCount = some 2 :=
  runDbscan_negative_eps_all_noise _ _ _ (by norm_num) (by norm_num)

/-! ## C3 — which records the normaliser drops -/

theorem evGo_mem_indices (ps : List (ℕ × SemanticNode)) (dim i : ℕ) :
    i ∈ (evGo ps dim).1 ↔
      ∃ nd l, (i, nd) ∈ ps ∧ nd.embedding = some l ∧ l ≠ [] := by
  induction ps generalizing dim with
  | nil => simp [evGo]
  | cons p rest ih =>
    obtain ⟨idx, item⟩ := p
    match hemb : item.embedding with
    | none =>
      rw [show evGo ((idx, item) :: rest) dim = evGo rest dim by
        simp [evGo, hemb]]
      rw [ih]
      constructor
      · rintro ⟨nd, l, hmem, hl, hne⟩
        exact ⟨nd, l, List.mem_cons_of_mem _ hmem, hl, hne⟩
      · rintro ⟨nd, l, hmem, hl, hne⟩
        rcases List.mem_cons.mp hmem with heq | hmem2
        · obtain ⟨rfl, rfl⟩ := Prod.mk.injEq .. ▸ heq
          injection (hemb ▸ hl)
        · exact ⟨nd, l, hmem2, hl, hne⟩
    | some emb =>
      by_cases hnil : emb = []
      · subst hnil
        rw [show evGo ((idx, item) :: rest) dim = evGo rest dim by
          simp [evGo, hemb]]
        rw [ih]
        constructor
        · rintro ⟨nd, l, hmem, hl, hne⟩
          exact ⟨nd, l, List.mem_cons_of_mem _ hmem, hl, hne⟩
        · rintro ⟨nd, l, hmem, hl, hne⟩
          rcases List.mem_cons.mp hmem with heq | hmem2
          · obtain ⟨rfl, rfl⟩ := Prod.mk.injEq .. ▸ heq
            rw [hemb] at hl
            exact absurd (Option.some.inj hl).symm hne
          · exact ⟨nd, l, hmem2, hl, hne⟩
      · have hstep : (evGo ((idx, item) :: rest) dim).1
            = idx :: (evGo rest
                (if dim = 0 then (emb.map (fun e => e.getD 0)).length else dim)).1 := by
          simp [evGo, hemb, hnil]
        rw [hstep]
        constructor
        · intro hmem
          rcases List.mem_cons.mp hmem with rfl | hmem2
          · exact ⟨item, emb, List.mem_cons_self _ _, hemb, hnil⟩
          · obtain ⟨nd, l, hmem3, hl, hne⟩ := (ih _).mp hmem2
            exact ⟨nd, l, List.mem_cons_of_mem _ hmem3, hl, hne⟩
        · rintro ⟨nd, l, hmem, hl, hne⟩
          rcases List.mem_cons.mp hmem with heq | hmem2
          · obtain ⟨rfl, rfl⟩ := Prod.mk.injEq .. ▸ heq
            exact List.mem_cons_self _ _
          · exact List.mem_cons_of_mem _ ((ih _).mpr ⟨nd, l, hmem2, hl, hne⟩)

/-- C3, amended: a record is excluded from the index map (hence its row
from the matrix) **iff** its embedding is missing/not an array or an empty
array.  An embedding that is a non-empty array of non-numeric values is
*kept*: each entry is coerced through `Number(...)` and non-finite results
become `0` — the post-coercion finiteness filter never removes anything. -/
theorem extract_drop_iff_missing_or_empty (data : List SemanticNode) (i : ℕ) :
    i ∈ (extractValidEmbeddings data).1 ↔
      ∃ nd l, data[i]? = some nd ∧ nd.embedding = some l ∧ l ≠ [] := by
  rw [extractValidEmbeddings, evGo_mem_indices]
  constructor
  · rintro ⟨nd, l, hmem, hl, hne⟩
    exact ⟨nd, l, (List.mem_enum_iff_getElem?.mp hmem), hl, hne⟩
  · rintro ⟨nd, l, hget, hl, hne⟩
    exact ⟨nd, l, List.mem_enum_iff_getElem?.mpr hget, hl, hne⟩

/-- C3, counterexample: a record whose embedding is a non-empty array of
non-numeric values (`Number(value)` non-finite, modelled `none`) is *not*
dropped: it stays in the index map and its entries are coerced to `0`. -/
theorem extract_keeps_nonnumeric_counterexample :
    (extractValidEmbeddings [⟨7, some [none]⟩]).1 = [0] ∧
      (extractValidEmbeddings [⟨7, some [none]⟩]).2.1 = [[0]] := by
  constructor <;> with_unfolding_all decide

/-! ## C4 — agglomerative target below 1 -/

/-- C4, amended: `targetClusters < 1` is **not** clamped to `1`; the code
short-circuits to the degenerate all-noise result — every row (valid or
not) is labelled `-1` and no centroid is returned. -/
theorem runAgglomerative_target_lt_one_all_noise (data : List SemanticNode)
    (target : ℤ) (h : target < 1) :
    runAgglomerative data target
      = ⟨List.replicate data.length (-1), [], none, none, none⟩ := by
  unfold runAgglomerative
  by_cases hd : data = []
  · subst hd; simp
  · rw [if_neg hd]
    by_cases hv : (extractValidEmbeddings data).2.1 = [] ∨
        (extractValidEmbeddings data).2.2 = 0
    · simp [hv]
    · simp [hv, h]

/-- C4 witness: the amended theorem at a one-record batch and `target = 0`. -/
theorem runAgglomerative_target_lt_one_all_noise_witness :
    runAgglomerative [mkNode 3 [5]] 0
      = ⟨List.replicate 1 (-1), [], none, none, none⟩ :=
  runAgglomerative_target_lt_one_all_noise _ _ (by norm_num)

/-- C4, counterexample: the original claim says the result for
`target < 1` equals the result for `target = 1` (a single cluster, no
noise label).  On the one-record batch `[[5]]`, `target = 0` yields label
`-1` with no centroid while `target = 1` yields label `0` with centroid
`[5]`. -/
theorem runAgglomerative_target_zero_ne_one_counterexample :
    (runAgglomerative [mkNode 3 [5]] 0).labels = [-1] ∧
      (runAgglomerative [mkNode 3 [5]] 1).labels = [0] ∧
      (runAgglomerative [mkNode 3 [5]] 1).centroids = [[5]] := by
  have he : extractValidEmbeddings [(⟨3, some [some 5]⟩ : SemanticNode)]
      = ([0], [[5]], 1) := by
    with_unfolding_all decide
  refine ⟨?_, ?_, ?_⟩ <;>
    simp [runAgglomerative, mkNode, he, mergeLoop, agglomLabels,
      buildFullLabels, clusterCentroid] <;>
    with_unfolding_all decide

/-! ## C8 — the trivial K-Means scenario -/

/-- C8: on `{[0,0], [0,0], [10,10], [10,10]}` with `k = 2`, K-Means (whose
random generator is seeded with the in-code constant `1993` — it accepts no
seed parameter, so this is the behaviour of every run) returns two
clusters of two members each with centroids `[0,0]` and `[10,10]` and
inertia `0`.  The seeded draw picks rows `0` and `2`, so no label
permutation occurs. -/
theorem runKMeans_trivial_scenario :
    (runKMeans [mkNode 0 [0, 0], mkNode 1 [0, 0],
        mkNode 2 [10, 10], mkNode 3 [10, 10]] 2).labels = [0, 0, 1, 1] ∧
      (runKMeans [mkNode 0 [0, 0], mkNode 1 [0, 0],
        mkNode 2 [10, 10], mkNode 3 [10, 10]] 2).labels.count 0 = 2 ∧
      (runKMeans [mkNode 0 [0, 0], mkNode 1 [0, 0],
        mkNode 2 [10, 10], mkNode 3 [10, 10]] 2).labels.count 1 = 2 ∧
      (runKMeans [mkNode 0 [0, 0], mkNode 1 [0, 0],
        mkNode 2 [10, 10], mkNode 3 [10, 10]] 2).centroids
          = [[0, 0], [10, 10]] ∧
      (runKMeans [mkNode 0 [0, 0], mkNode 1 [0, 0],
        mkNode 2 [10, 10], mkNode 3 [10, 10]] 2).inertia = some 0 := by
  refine ⟨?_, ?_, ?_, ?_, ?_⟩ <;> with_unfolding_all decide

/-! ## C9 — the insight aggregator -/

theorem groupByCluster_append_one (xs : List ProjectedNode) (x : ProjectedNode) :
    groupByCluster (xs ++ [x]) = pushBucket (groupByCluster xs) x := by
  simp [groupByCluster, List.foldl_append]

/-- Joint characterisation of the grouping pass: the bucket keys are the
distinct cluster ids in first-occurrence order (without duplicates), and
each bucket holds exactly the records with that id, in input order. -/
theorem groupByCluster_spec (nodes : List ProjectedNode) :
    (∀ k, k ∈ (groupByCluster nodes).map Prod.fst ↔
        ∃ nd ∈ nodes, nd.clusterId = k) ∧
      ((groupByCluster nodes).map Prod.fst).Nodup ∧
      ∀ p ∈ groupByCluster nodes,
        p.2 = nodes.filter (fun nd => nd.clusterId = p.1) := by
  induction nodes using List.reverseRecOn with
  | nil => simp [groupByCluster]
  | append_singleton xs x ih =>
    obtain ⟨ihKeys, ihNodup, ihBuckets⟩ := ih
    rw [groupByCluster_append_one]
    by_cases h : (groupByCluster xs).any (fun g => g.1 = x.clusterId)
    · have hmapfst : (pushBucket (groupByCluster xs) x).map Prod.fst
          = (groupByCluster xs).map Prod.fst := by
        simp only [pushBucket, h, if_true, List.map_map]
        refine List.map_congr_left ?_
        intro g _
        by_cases hg : g.1 = x.clusterId <;> simp [hg]
      refine ⟨?_, ?_, ?_⟩
      · intro k
        rw [hmapfst, ihKeys]
        constructor
        · rintro ⟨nd, hnd, rfl⟩
          exact ⟨nd, by simp [hnd], rfl⟩
        · rintro ⟨nd, hnd, rfl⟩
          rcases List.mem_append.mp hnd with hnd | hnd
          · exact ⟨nd, hnd, rfl⟩
          · have : nd = x := by simpa using hnd
            subst this
            obtain ⟨g, hg, hgx⟩ := List.any_eq_true.mp h
            have : g.1 ∈ (groupByCluster xs).map Prod.fst :=
              List.mem_map.mpr ⟨g, hg, rfl⟩
            rw [ihKeys] at this
            obtain ⟨nd2, hnd2, hnd2x⟩ := this
            exact ⟨nd2, hnd2, by rw [hnd2x, of_decide_eq_true hgx]⟩
      · rw [hmapfst]; exact ihNodup
      · intro p hp
        simp only [pushBucket, h, if_true, List.mem_map] at hp
        obtain ⟨g, hg, hfg⟩ := hp
        by_cases hgx : g.1 = x.clusterId
        · rw [if_pos hgx] at hfg
          subst hfg
          simp only [List.filter_append]
          rw [← ihBuckets g hg]
          simp [hgx]
        · rw [if_neg hgx] at hfg
          subst hfg
          simp only [List.filter_append]
          rw [← ihBuckets g hg]
          simp [hgx, Ne.symm]
    · have hnotin : x.clusterId ∉ (groupByCluster xs).map Prod.fst := by
        intro hmem
        obtain ⟨g, hg, hgx⟩ := List.mem_map.mp hmem
        exact h (List.any_eq_true.mpr ⟨g, hg, by simp [hgx]⟩)
      have hb : (groupByCluster xs).any (fun g => g.1 = x.clusterId) = false :=
        Bool.eq_false_iff.mpr h
      have hpush : pushBucket (groupByCluster xs) x
          = groupByCluster xs ++ [(x.clusterId, [x])] := by
        simp [pushBucket, hb]
      refine ⟨?_, ?_, ?_⟩
      · intro k
        rw [hpush]
        simp only [List.map_append, List.mem_append, List.map_cons,
          List.map_nil, List.mem_singleton]
        rw [ihKeys]
        constructor
        · rintro (⟨nd, hnd, rfl⟩ | rfl)
          · exact ⟨nd, by simp [hnd], rfl⟩
          · exact ⟨x, by simp, rfl⟩
        · rintro ⟨nd, hnd, rfl⟩
          rcases hnd with hnd | rfl
          · exact Or.inl ⟨nd, hnd, rfl⟩
          · exact Or.inr rfl
      · rw [hpush]
        simp only [List.map_append, List.map_cons, List.map_nil]
        exact List.Nodup.append ihNodup (List.nodup_singleton _)
          (by
            intro a ha hb
            have : a = x.clusterId := by simpa using hb
            subst this
            exact hnotin ha)
      · intro p hp
        rw [hpush] at hp
        rcases List.mem_append.mp hp with hp | hp
        · have hne : p.1 ≠ x.clusterId := by
            intro hco
            exact hnotin (hco ▸ List.mem_map.mpr ⟨p, hp, rfl⟩)
          rw [List.filter_append, ← ihBuckets p hp]
          simp only [List.filter_cons, List.filter_nil]
          have : ¬(x.clusterId = p.1) := fun hco => hne hco.symm
          simp [this]
        · have : p = (x.clusterId, [x]) := by simpa using hp
          subst this
          simp only [List.filter_append, List.filter_cons, List.filter_nil]
          have hxs : xs.filter (fun nd => nd.clusterId = x.clusterId) = [] := by
            rw [List.filter_eq_nil_iff]
            intro nd hnd hco
            exact hnotin ((ihKeys _).mpr ⟨nd, hnd, of_decide_eq_true hco⟩)
          simp [hxs]

theorem stableInsert_perm (before : α → α → Bool) (x : α) :
    ∀ l : List α, (stableInsert before x l).Perm (x :: l)
  | [] => List.Perm.refl _
  | y :: ys => by
    rw [stableInsert]
    by_cases hb : before y x
    · rw [if_pos hb]
      exact ((stableInsert_perm before x ys).cons y).trans (List.Perm.swap x y ys)
    · rw [if_neg hb]

theorem stableSort_perm (before : α → α → Bool) :
    ∀ l : List α, (stableSort before l).Perm l
  | [] => List.Perm.refl _
  | x :: xs =>
    (stableInsert_perm before x (stableSort before xs)).trans
      ((stableSort_perm before xs).cons x)

theorem stableInsert_sorted (before : α → α → Bool)
    (hasym : ∀ a b, before a b = true → before b a = false)
    (htr : ∀ a b c, before b a = false → before c b = false → before c a = false)
    (x : α) :
    ∀ l : List α, List.Sorted (fun a b => before b a = false) l →
      List.Sorted (fun a b => before b a = false) (stableInsert before x l)
  | [], _ => List.sorted_singleton x
  | y :: ys, hs => by
    rw [stableInsert]
    rcases List.sorted_cons.mp hs with ⟨hy, hys⟩
    by_cases hb : before y x
    · rw [if_pos hb]
      refine List.sorted_cons.mpr ⟨?_, stableInsert_sorted before hasym htr x ys hys⟩
      intro z hz
      have hz2 := (stableInsert_perm before x ys).mem_iff.mp hz
      rcases List.mem_cons.mp hz2 with rfl | hz3
      · exact hasym y z hb
      · exact hy z hz3
    · rw [if_neg hb]
      refine List.sorted_cons.mpr ⟨?_, hs⟩
      intro z hz
      rcases List.mem_cons.mp hz with rfl | hz2
      · exact Bool.eq_false_iff.mpr hb
      · exact htr x y z (Bool.eq_false_iff.mpr hb) (hy z hz2)

theorem stableSort_sorted (before : α → α → Bool)
    (hasym : ∀ a b, before a b = true → before b a = false)
    (htr : ∀ a b c, before b a = false → before c b = false → before c a = false) :
    ∀ l : List α,
      List.Sorted (fun a b => before b a = false) (stableSort before l)
  | [] => List.sorted_nil
  | x :: xs =>
    stableInsert_sorted before hasym htr x (stableSort before xs)
      (stableSort_sorted before hasym htr xs)

/-- C9: the aggregator returns exactly one insight per distinct cluster
label occurring in the input (the noise sentinel `-1` included when
present), each insight's size is the number of records carrying that label,
and the output is sorted by member count in descending order. -/
theorem clusterInsights_spec (nodes : List ProjectedNode) :
    (∀ k : ℤ, k ∈ (clusterInsights nodes).map (fun i => i.id) ↔
        ∃ nd ∈ nodes, nd.clusterId = k) ∧
      ((clusterInsights nodes).map (fun i => i.id)).Nodup ∧
      (∀ ins ∈ clusterInsights nodes,
        ins.size = (nodes.filter (fun nd => nd.clusterId = ins.id)).length) ∧
      List.Sorted (fun a b => b.size ≤ a.size) (clusterInsights nodes) := by
  obtain ⟨hKeys, hNodup, hBuckets⟩ := groupByCluster_spec nodes
  have hperm : (clusterInsights nodes).Perm
      ((groupByCluster nodes).map insightOf) :=
    stableSort_perm _ _
  have hid : ((groupByCluster nodes).map insightOf).map (fun i => i.id)
      = (groupByCluster nodes).map Prod.fst := by
    rw [List.map_map]
    refine List.map_congr_left ?_
    intro g _
    simp [insightOf]
  have hpermid : ((clusterInsights nodes).map (fun i => i.id)).Perm
      ((groupByCluster nodes).map Prod.fst) :=
    hid ▸ hperm.map (fun i => i.id)
  refine ⟨?_, ?_, ?_, ?_⟩
  · intro k
    rw [hpermid.mem_iff]
    exact hKeys k
  · exact hpermid.nodup_iff.mpr hNodup
  · intro ins hins
    have hmem : ins ∈ (groupByCluster nodes).map insightOf :=
      hperm.mem_iff.mp hins
    obtain ⟨g, hg, rfl⟩ := List.mem_map.mp hmem
    have hbucket := hBuckets g hg
    have hidg : (insightOf g).id = g.1 := by simp [insightOf]
    have hsize : (insightOf g).size = g.2.length := by simp [insightOf]
    rw [hsize, hidg, hbucket]
  · have hs := stableSort_sorted (fun a b : ClusterInsight => b.size < a.size)
      (fun a b hab => by
        simp only [decide_eq_true_eq] at hab
        simpa using Nat.le_of_lt hab)
      (fun a b c hba hcb => by
        simp only [decide_eq_false_iff_not, not_lt] at hba hcb ⊢
        omega)
      ((groupByCluster nodes).map insightOf)
    refine hs.imp ?_
    intro a b hab
    simp only [decide_eq_false_iff_not, not_lt] at hab
    exact hab

/-- C9 witness: the size conjunct of `clusterInsights_spec` applied to a
concrete five-record batch, at the head insight of the output. -/
theorem clusterInsights_spec_witness :
    ((clusterInsights [⟨1, 0, 1, 1, 0⟩, ⟨2, 1, 1, 1, -1⟩, ⟨3, 0, 1, 1, 2⟩,
        ⟨4, 2, 1, 1, 2⟩, ⟨5, 0, 1, 1, 2⟩]).getD 0 ⟨0, 0, 0, 0, [], []⟩).size
      = ([⟨1, 0, 1, 1, 0⟩, ⟨2, 1, 1, 1, -1⟩, ⟨3, 0, 1, 1, 2⟩,
          ⟨4, 2, 1, 1, 2⟩, ⟨5, 0, 1, 1, 2⟩].filter
            (fun nd : ProjectedNode => nd.clusterId
              = ((clusterInsights [⟨1, 0, 1, 1, 0⟩, ⟨2, 1, 1, 1, -1⟩,
                  ⟨3, 0, 1, 1, 2⟩, ⟨4, 2, 1, 1, 2⟩,
                  ⟨5, 0, 1, 1, 2⟩]).getD 0 ⟨0, 0, 0, 0, [], []⟩).id)).length :=
  (clusterInsights_spec _).2.2.1 _ (by with_unfolding_all decide)

/-! ## C10 — the projector projects every record -/

theorem normalizeVec_length (v : List ℝ) : (normalizeVec v).length = v.length := by
  simp [normalizeVec]

theorem matVec_length (m : List (List ℝ)) (v : List ℝ) :
    (matVec m v).length = m.length := by
  simp [matVec]

theorem deflate_length (bases : List (List ℝ)) (next : List ℝ) :
    (deflate bases next).length = next.length := by
  induction bases generalizing next with
  | nil => rfl
  | cons b bs ih =>
    rw [deflate, List.foldl_cons]
    rw [show List.foldl _ _ bs = deflate bs _ from rfl, ih]
    simp [List.enum_length]

theorem piStep_length (m bases : List (List ℝ)) (v : List ℝ) :
    (piStep m bases v).length = m.length := by
  rw [piStep, normalizeVec_length, deflate_length, matVec_length]

theorem piRun_length (m bases : List (List ℝ)) (init : List ℝ) (k : ℕ) :
    (piRun m bases init (k + 1)).length = m.length := by
  rw [piRun, Function.iterate_succ_apply', piStep_length]

/-- C10: the projector performs no validation and drops nothing — for
every non-empty batch (rows of arbitrary lengths included), it returns
exactly one `(x, y)` pair per input record, and its two working basis
vectors have the length of the *first* record's embedding, which fixes the
dimensionality. -/
theorem projectTo2D_one_point_per_record (data : List PNode) (rnd : ℕ → ℝ)
    (h : data ≠ []) :
    (projectTo2D data rnd).2.length = data.length ∧
      (projectTo2D data rnd).1.length = 2 ∧
      ∀ c ∈ (projectTo2D data rnd).1,
        c.length = (data.headI).embedding.length := by
  match data with
  | [] => exact absurd rfl h
  | n0 :: rest =>
    refine ⟨?_, ?_, ?_⟩
    · simp [projectTo2D, projectCore, centeredOf]
    · simp [projectTo2D, projectCore]
    · intro c hc
      have hcov : (covOf (centeredOf (n0 :: rest) (meanOf (n0 :: rest)
          (dimOf (n0 :: rest)))) (dimOf (n0 :: rest)) (n0 :: rest).length).length
          = dimOf (n0 :: rest) := by
        simp [covOf]
      simp only [projectTo2D, projectCore] at hc
      rcases List.mem_cons.mp hc with rfl | hc2
      · rw [show (120 : ℕ) = 119 + 1 from rfl, piRun_length, hcov]
        rfl
      · rcases List.mem_cons.mp hc2 with rfl | hc3
        · rw [show (120 : ℕ) = 119 + 1 from rfl, piRun_length, hcov]
          rfl
        · exact absurd hc3 (List.not_mem_nil c)

/-- C10 witness: the theorem applied to a concrete one-record batch and
the constant-zero random stream. -/
theorem projectTo2D_one_point_per_record_witness :
    (projectTo2D [⟨[5]⟩] (fun _ => 0)).2.length = 1 ∧
      (projectTo2D [⟨[5]⟩] (fun _ => 0)).1.length = 2 ∧
      ∀ c ∈ (projectTo2D [⟨[5]⟩] (fun _ => 0)).1,
        c.length = (([⟨[5]⟩] : List PNode).headI).embedding.length :=
  projectTo2D_one_point_per_record [⟨[5]⟩] (fun _ => 0) (by simp)

/-! ## C2 — determinism and seedability -/

/-- C2, amended: the Projector is a deterministic function of the input
batch and the `2·d` ambient `Math.random()` draws that form its two
initial vectors: two runs whose draws agree on those indices produce
identical output.  (K-Means consumes no ambient randomness at all — its
generator is seeded with the in-code constant `1993` and no seed parameter
exists — so, as is definitional in this embedding, it is a function of the
batch and parameters alone.)  The initial vectors themselves can *not* be
seeded through any interface: the output varies with the ambient draws
(see the counterexample). -/
theorem projectTo2D_deterministic_in_draws (data : List PNode)
    (r1 r2 : ℕ → ℝ) (h : ∀ i < 2 * dimOf data, r1 i = r2 i) :
    projectTo2D data r1 = projectTo2D data r2 := by
  have h1 : (List.range (dimOf data)).map r1 = (List.range (dimOf data)).map r2 := by
    refine List.map_congr_left ?_
    intro i hi
    exact h i (by
      have := List.mem_range.mp hi
      omega)
  have h2 : (List.range (dimOf data)).map (fun i => r1 (dimOf data + i))
      = (List.range (dimOf data)).map (fun i => r2 (dimOf data + i)) := by
    refine List.map_congr_left ?_
    intro i hi
    exact h (dimOf data + i) (by
      have := List.mem_range.mp hi
      omega)
  rw [projectTo2D, projectTo2D, h1, h2]

/-- C2 witness: two streams that agree on the consumed draws but differ
elsewhere give identical projector output on a concrete batch. -/
theorem projectTo2D_deterministic_in_draws_witness :
    projectTo2D [⟨[5]⟩] (fun _ => 0)
      = projectTo2D [⟨[5]⟩] (fun i => if i < 2 then 0 else 1) :=
  projectTo2D_deterministic_in_draws _ _ _ (by
    intro i hi
    have h2 : i < 2 := by simpa [dimOf] using hi
    simp [h2])

/-! ### Concrete real-number evaluations.

The lemmas below evaluate the power iteration on small concrete inputs:
on a one-dimensional covariance `[[2]]` the unit vector `[1]` is a fixed
point of the iteration, a zero working vector stays zero (the `|| 1` norm
guard divides by 1), and the two-record batch `{[1], [-1]}` has mean `[0]`
and covariance `[[2]]`. -/

theorem normSq_single (x : ℝ) : normSq [x] = x ^ 2 := by simp [normSq]

theorem normalizeVec_single_pos (x : ℝ) (hx : 0 < x) : normalizeVec [x] = [1] := by
  unfold normalizeVec
  rw [normSq_single, Real.sqrt_sq hx.le]
  simp [hx.ne.symm, div_self]

theorem normalizeVec_single_zero : normalizeVec [(0:ℝ)] = [0] := by
  simp [normalizeVec, normSq]

theorem matVec_2_1 : matVec [[(2:ℝ)]] [1] = [2] := by
  simp [matVec, List.range_succ]

theorem matVec_2_0 : matVec [[(2:ℝ)]] [0] = [0] := by
  simp [matVec, List.range_succ]

theorem deflate_nil (v : List ℝ) : deflate [] v = v := rfl

theorem deflate_1_2 : deflate [[(1:ℝ)]] [2] = [0] := by
  simp [deflate]

theorem deflate_1_0 : deflate [[(1:ℝ)]] [0] = [0] := by
  simp [deflate]

theorem hfix1 : piStep [[(2:ℝ)]] [] [1] = [1] := by
  rw [piStep, matVec_2_1, deflate_nil]
  exact normalizeVec_single_pos 2 (by norm_num)

theorem hfix2 : piStep [[(2:ℝ)]] [[1]] [0] = [0] := by
  rw [piStep, matVec_2_0, deflate_1_0]
  exact normalizeVec_single_zero

theorem hstep12 : piStep [[(2:ℝ)]] [[1]] [1] = [0] := by
  rw [piStep, matVec_2_1, deflate_1_2]
  exact normalizeVec_single_zero

theorem first_A : piRun [[(2:ℝ)]] [] [1/2] 120 = [1] := by
  rw [piRun, show normalizeVec [(1:ℝ)/2] = [1] from normalizeVec_single_pos _ (by norm_num)]
  exact Function.iterate_fixed hfix1 120

theorem second_A : piRun [[(2:ℝ)]] [[1]] [1/2] 120 = [0] := by
  rw [piRun, show normalizeVec [(1:ℝ)/2] = [1] from normalizeVec_single_pos _ (by norm_num)]
  rw [show (120:ℕ) = 119 + 1 from rfl, Function.iterate_succ_apply, hstep12]
  exact Function.iterate_fixed hfix2 119

theorem piStep_zero_fix : piStep [[(2:ℝ)]] [] [0] = [0] := by
  rw [piStep, matVec_2_0, deflate_nil]
  exact normalizeVec_single_zero

theorem first_B : piRun [[(2:ℝ)]] [] [0] 120 = [0] := by
  rw [piRun, normalizeVec_single_zero]
  exact Function.iterate_fixed piStep_zero_fix 120

theorem mean_data2 : meanOf [(⟨[1]⟩ : PNode), ⟨[-1]⟩] 1 = [0] := by
  simp [meanOf, List.range_succ]

theorem centered_data2 : centeredOf [(⟨[1]⟩ : PNode), ⟨[-1]⟩] [0] = [[1], [-1]] := by
  simp [centeredOf]

theorem cov_data2 : covOf [[(1:ℝ)], [-1]] 1 2 = [[2]] := by
  simp [covOf, List.range_succ]
  norm_num

theorem pcA : projectCore [(⟨[1]⟩ : PNode), ⟨[-1]⟩] [1/2] [1/2]
    = ([[1], [0]], [(1, 0), (-1, 0)]) := by
  simp only [projectCore, dimOf, List.headI, List.length_cons, List.length_nil]
  norm_num [mean_data2, centered_data2, cov_data2, first_A, second_A, dotP]

theorem deflate_0_0 : deflate [[(0:ℝ)]] [0] = [0] := by
  simp [deflate]

theorem hfix0B : piStep [[(2:ℝ)]] [[0]] [0] = [0] := by
  rw [piStep, matVec_2_0, deflate_0_0]
  exact normalizeVec_single_zero

theorem second_B : piRun [[(2:ℝ)]] [[0]] [0] 120 = [0] := by
  rw [piRun, normalizeVec_single_zero]
  exact Function.iterate_fixed hfix0B 120

theorem pcB : projectCore [(⟨[1]⟩ : PNode), ⟨[-1]⟩] [0] [0]
    = ([[0], [0]], [(0, 0), (-0, -0)]) := by
  simp only [projectCore, dimOf, List.headI, List.length_cons, List.length_nil]
  norm_num [mean_data2, centered_data2, cov_data2, first_B, second_B, dotP]

/-- C2, counterexample: the Projector cannot be seeded and is not a
deterministic function of input and parameters alone — on the batch
`{[1], [-1]}` two runs with identical input and parameters but different
ambient `Math.random()` draws (`0.5` everywhere versus `0` everywhere)
produce different output, and no seed parameter exists that could fix the
draws.  (With draw `0` the initial vector is zero and never recovers, so
both components collapse to the zero vector.) -/
theorem projectTo2D_not_seedable_counterexample :
    projectTo2D [(⟨[1]⟩ : PNode), ⟨[-1]⟩] (fun _ => 1/2)
      ≠ projectTo2D [(⟨[1]⟩ : PNode), ⟨[-1]⟩] (fun _ => 0) := by
  have hA : projectTo2D [(⟨[1]⟩ : PNode), ⟨[-1]⟩] (fun _ => 1/2)
      = ([[1], [0]], [(1, 0), (-1, 0)]) := by
    rw [projectTo2D]
    rw [show (List.range (dimOf [(⟨[1]⟩ : PNode), ⟨[-1]⟩])).map
        (fun _ => (1:ℝ)/2) = [1/2] from by simp [dimOf, List.range_succ]]
    exact pcA
  have hB : projectTo2D [(⟨[1]⟩ : PNode), ⟨[-1]⟩] (fun _ => 0)
      = ([[0], [0]], [(0, 0), (-0, -0)]) := by
    rw [projectTo2D]
    rw [show (List.range (dimOf [(⟨[1]⟩ : PNode), ⟨[-1]⟩])).map
        (fun _ => (0:ℝ)) = [0] from by simp [dimOf, List.range_succ]]
    exact pcB
  rw [hA, hB]
  norm_num



theorem normSq_nonneg (v : List ℝ) : 0 ≤ normSq v := by
  refine List.sum_nonneg ?_
  intro x hx
  obtain ⟨y, _, rfl⟩ := List.mem_map.mp hx
  positivity

theorem normSq_map_div (v : List ℝ) (c : ℝ) :
    normSq (v.map (fun x => x / c)) = normSq v / c ^ 2 := by
  induction v with
  | nil => simp [normSq]
  | cons x xs ih =>
    simp only [List.map_cons, normSq, List.sum_cons] at ih ⊢
    rw [ih]
    ring

theorem normSq_normalize_of_ne (v : List ℝ) (h : normSq v ≠ 0) :
    normSq (normalizeVec v) = 1 := by
  have hpos : 0 < normSq v := lt_of_le_of_ne (normSq_nonneg v) (Ne.symm h)
  have hsq : Real.sqrt (normSq v) ≠ 0 := by
    positivity
  rw [normalizeVec]
  simp only [hsq, if_false]
  rw [normSq_map_div, Real.sq_sqrt (normSq_nonneg v)]
  exact div_self h

theorem normalizeVec_of_normSq_zero (v : List ℝ) (h : normSq v = 0) :
    normalizeVec v = v := by
  rw [normalizeVec]
  simp [h]

theorem getD_succ_tail (b : List ℝ) (i : ℕ) (d : ℝ) :
    b.getD (i + 1) d = b.tail.getD i d := by
  cases b <;> simp

theorem map_enumFrom_shift (g : ℕ → ℝ → ℝ) :
    ∀ (xs : List ℝ) (n : ℕ),
      (List.enumFrom (n + 1) xs).map (fun p => g p.1 p.2)
        = (List.enumFrom n xs).map (fun p => g (p.1 + 1) p.2)
  | [], _ => rfl
  | x :: xs, n => by
    simp only [List.enumFrom, List.map_cons]
    rw [map_enumFrom_shift g xs (n + 1)]

theorem dotP_cons (x : ℝ) (xs b : List ℝ) :
    dotP (x :: xs) b = x * b.getD 0 0 + dotP xs b.tail := by
  simp only [dotP, List.enum_cons, List.map_cons, List.sum_cons]
  congr 1
  rw [show List.enumFrom 1 xs = List.enumFrom (0 + 1) xs by norm_num]
  rw [map_enumFrom_shift (fun i v => v * b.getD i 0) xs 0]
  refine congrArg List.sum ?_
  refine List.map_congr_left ?_
  intro p _
  simp [getD_succ_tail]

/-- The per-index sum of squares of `f` taken over the indices of `u`. -/
def sqIdx : List ℝ → List ℝ → ℝ
  | [], _ => 0
  | _ :: xs, f => f.getD 0 0 ^ 2 + sqIdx xs f.tail

theorem sqIdx_eq_normSq (u f : List ℝ) (h : u.length = f.length) :
    sqIdx u f = normSq f := by
  induction u generalizing f with
  | nil =>
    have : f = [] := List.length_eq_zero.mp h.symm
    subst this
    simp [sqIdx, normSq]
  | cons x xs ih =>
    match f with
    | [] => simp at h
    | y :: ys =>
      simp only [List.length_cons, Nat.succ.injEq] at h
      simp only [sqIdx, List.getD_cons_zero, List.tail_cons, normSq,
        List.map_cons, List.sum_cons]
      rw [ih ys h]
      rfl

theorem dotP_deflate_sub (u f : List ℝ) (d : ℝ) :
    dotP ((u.enum).map (fun p => p.2 - d * f.getD p.1 0)) f
      = dotP u f - d * sqIdx u f := by
  induction u generalizing f with
  | nil => simp [dotP, sqIdx]
  | cons x xs ih =>
    have hshape : ((x :: xs).enum).map (fun p => p.2 - d * f.getD p.1 0)
        = (x - d * f.getD 0 0)
          :: ((xs.enum).map (fun p => p.2 - d * f.tail.getD p.1 0)) := by
      simp only [List.enum_cons, List.map_cons]
      congr 1
      rw [show List.enumFrom 1 xs = List.enumFrom (0 + 1) xs by norm_num]
      rw [map_enumFrom_shift (fun i v => v - d * f.getD i 0) xs 0]
      refine List.map_congr_left ?_
      intro p _
      simp [getD_succ_tail]
    rw [hshape, dotP_cons, ih f.tail, dotP_cons]
    simp only [sqIdx]
    ring

theorem dotP_map_div (w f : List ℝ) (c : ℝ) :
    dotP (w.map (fun x => x / c)) f = dotP w f / c := by
  induction w generalizing f with
  | nil => simp [dotP]
  | cons x xs ih =>
    simp only [List.map_cons, dotP_cons, ih]
    ring

theorem deflate_single (f u : List ℝ) :
    deflate [f] u = (u.enum).map (fun p => p.2 - dotP u f * f.getD p.1 0) := by
  simp [deflate, dotP]

theorem dotP_normalize_zero (w f : List ℝ) (h : dotP w f = 0) :
    dotP (normalizeVec w) f = 0 := by
  rw [normalizeVec]
  rw [dotP_map_div, h, zero_div]

/-- C6, amended: provided the working vector entering the *final*
renormalisation of each power-iteration run is non-zero, the two returned
basis vectors have unit norm and their dot product is *exactly* zero (the
per-iteration deflation against a unit first vector is exact).  When a
working vector has zero norm, the `|| 1` guard divides by `1` and the
vector — the zero vector — is kept unchanged; no fixed unit vector is
substituted (final conjunct). -/
theorem powerIteration_unit_orthogonal (m : List (List ℝ)) (init1 init2 : List ℝ)
    (h1 : normSq (deflate [] (matVec m
      ((piStep m [])^[119] (normalizeVec init1)))) ≠ 0)
    (h2 : normSq (deflate [piRun m [] init1 120] (matVec m
      ((piStep m [piRun m [] init1 120])^[119] (normalizeVec init2)))) ≠ 0) :
    normSq (piRun m [] init1 120) = 1 ∧
      normSq (piRun m [piRun m [] init1 120] init2 120) = 1 ∧
      dotP (piRun m [piRun m [] init1 120] init2 120) (piRun m [] init1 120) = 0 ∧
      ∀ v : List ℝ, normSq v = 0 → normalizeVec v = v := by
  have hrun : ∀ (bases : List (List ℝ)) (init : List ℝ),
      piRun m bases init 120 = normalizeVec (deflate bases
        (matVec m ((piStep m bases)^[119] (normalizeVec init)))) := by
    intro bases init
    rw [piRun, show (120 : ℕ) = 119 + 1 from rfl, Function.iterate_succ_apply']
    rfl
  have hfirst : normSq (piRun m [] init1 120) = 1 := by
    rw [hrun]
    exact normSq_normalize_of_ne _ h1
  have hsecond : normSq (piRun m [piRun m [] init1 120] init2 120) = 1 := by
    rw [hrun]
    exact normSq_normalize_of_ne _ h2
  refine ⟨hfirst, hsecond, ?_, normalizeVec_of_normSq_zero⟩
  have hflen : (piRun m [] init1 120).length = m.length := piRun_length m [] init1 119
  have hulen : (matVec m ((piStep m [piRun m [] init1 120])^[119]
      (normalizeVec init2))).length = m.length :=
    matVec_length m _
  rw [hrun [piRun m [] init1 120] init2]
  refine dotP_normalize_zero _ _ ?_
  rw [deflate_single, dotP_deflate_sub,
    sqIdx_eq_normSq _ _ (hulen.trans hflen.symm), hfirst]
  ring


theorem nv_half0 : normalizeVec [(1:ℝ)/2, 0] = [1, 0] := by
  simp only [normalizeVec]
  rw [show normSq [(1:ℝ)/2, 0] = (1/2)^2 by simp [normSq]]
  rw [Real.sqrt_sq (by norm_num : (0:ℝ) ≤ 1/2)]
  norm_num

theorem nv_0half : normalizeVec [(0:ℝ), 1/2] = [0, 1] := by
  simp only [normalizeVec]
  rw [show normSq [(0:ℝ), 1/2] = (1/2)^2 by simp [normSq]]
  rw [Real.sqrt_sq (by norm_num : (0:ℝ) ≤ 1/2)]
  norm_num

theorem nv_10 : normalizeVec [(1:ℝ), 0] = [1, 0] := by
  simp only [normalizeVec]
  rw [show normSq [(1:ℝ), 0] = 1^2 by simp [normSq]]
  rw [Real.sqrt_sq (by norm_num : (0:ℝ) ≤ 1)]
  norm_num

theorem nv_01 : normalizeVec [(0:ℝ), 1] = [0, 1] := by
  simp only [normalizeVec]
  rw [show normSq [(0:ℝ), 1] = 1^2 by simp [normSq]]
  rw [Real.sqrt_sq (by norm_num : (0:ℝ) ≤ 1)]
  norm_num

def idMat2 : List (List ℝ) := [[1, 0], [0, 1]]

theorem mvI_10 : matVec idMat2 [1, 0] = [1, 0] := by
  simp [idMat2, matVec, List.range_succ]

theorem mvI_01 : matVec idMat2 [0, 1] = [0, 1] := by
  simp [idMat2, matVec, List.range_succ]

theorem fixI_first : piStep idMat2 [] [1, 0] = [1, 0] := by
  rw [piStep, mvI_10, deflate_nil, nv_10]

theorem defl_I : deflate [[(1:ℝ), 0]] [0, 1] = [0, 1] := by
  rw [deflate_single]
  rw [show dotP [(0:ℝ), 1] [1, 0] = 0 by rw [dotP_cons, dotP_cons]; norm_num [dotP]]
  simp

theorem fixI_second : piStep idMat2 [[1, 0]] [0, 1] = [0, 1] := by
  rw [piStep, mvI_01, defl_I, nv_01]

theorem firstI_run : piRun idMat2 [] [1/2, 0] 120 = [1, 0] := by
  rw [piRun, nv_half0]
  exact Function.iterate_fixed fixI_first 120

theorem secondI_run : piRun idMat2 [[1, 0]] [0, 1/2] 120 = [0, 1] := by
  rw [piRun, nv_0half]
  exact Function.iterate_fixed fixI_second 120


theorem normSq_10 : normSq [(1:ℝ), 0] = 1 := by simp [normSq]

theorem normSq_01 : normSq [(0:ℝ), 1] = 1 := by simp [normSq]

/-- C6 witness: the amended theorem on the 2×2 identity covariance with
draws `[1/2, 0]` and `[0, 1/2]`, whose iterations are fixed points. -/
theorem powerIteration_unit_orthogonal_witness :
    normSq (piRun idMat2 [] [1/2, 0] 120) = 1 ∧
      normSq (piRun idMat2 [piRun idMat2 [] [1/2, 0] 120] [0, 1/2] 120) = 1 ∧
      dotP (piRun idMat2 [piRun idMat2 [] [1/2, 0] 120] [0, 1/2] 120)
        (piRun idMat2 [] [1/2, 0] 120) = 0 ∧
      ∀ v : List ℝ, normSq v = 0 → normalizeVec v = v :=
  powerIteration_unit_orthogonal idMat2 [1/2, 0] [0, 1/2]
    (by
      rw [nv_half0, Function.iterate_fixed fixI_first 119, mvI_10, deflate_nil,
        normSq_10]
      norm_num)
    (by
      rw [firstI_run, nv_0half, Function.iterate_fixed fixI_second 119, mvI_01,
        defl_I, normSq_01]
      norm_num)


/-- Four 2-variance records: dimensions 0 and 1 have non-zero variance,
dimension 2 is constant. -/
noncomputable def varData : List PNode :=
  [⟨[1, 0, 0]⟩, ⟨[-1, 0, 0]⟩, ⟨[0, 1, 0]⟩, ⟨[0, -1, 0]⟩]

/-- An ambient draw sequence whose third value is `1/2` and all others `0`,
placing the initial power-iteration vector in the kernel of the
covariance matrix of `varData`. -/
noncomputable def kernelStream : ℕ → ℝ := fun i => if i = 2 then 1/2 else 0

theorem mean_varData : meanOf varData 3 = [0, 0, 0] := by
  simp [varData, meanOf, List.range_succ]

theorem centered_varData :
    centeredOf varData [0, 0, 0] = [[1, 0, 0], [-1, 0, 0], [0, 1, 0], [0, -1, 0]] := by
  simp [varData, centeredOf, List.enum, List.enumFrom]
  rfl

theorem cov_varData :
    covOf [[(1:ℝ), 0, 0], [-1, 0, 0], [0, 1, 0], [0, -1, 0]] 3 4
      = [[2/3, 0, 0], [0, 2/3, 0], [0, 0, 0]] := by
  simp [covOf, List.range_succ]
  norm_num

theorem nv_001 : normalizeVec [(0:ℝ), 0, 1/2] = [0, 0, 1] := by
  simp only [normalizeVec]
  rw [show normSq [(0:ℝ), 0, 1/2] = (1/2)^2 by simp [normSq]]
  rw [Real.sqrt_sq (by norm_num : (0:ℝ) ≤ 1/2)]
  norm_num

theorem nv_000 : normalizeVec [(0:ℝ), 0, 0] = [0, 0, 0] :=
  normalizeVec_of_normSq_zero _ (by simp [normSq])

theorem mv_cov_001 :
    matVec [[(2:ℝ)/3, 0, 0], [0, 2/3, 0], [0, 0, 0]] [0, 0, 1] = [0, 0, 0] := by
  simp [matVec, List.range_succ]

theorem mv_cov_000 :
    matVec [[(2:ℝ)/3, 0, 0], [0, 2/3, 0], [0, 0, 0]] [0, 0, 0] = [0, 0, 0] := by
  simp [matVec, List.range_succ]

theorem fix_cov_zero :
    piStep [[(2:ℝ)/3, 0, 0], [0, 2/3, 0], [0, 0, 0]] [] [0, 0, 0] = [0, 0, 0] := by
  rw [piStep, mv_cov_000, deflate_nil, nv_000]

theorem first_varData :
    piRun [[(2:ℝ)/3, 0, 0], [0, 2/3, 0], [0, 0, 0]] [] [0, 0, 1/2] 120
      = [0, 0, 0] := by
  rw [piRun, nv_001, show (120:ℕ) = 119 + 1 from rfl,
    Function.iterate_succ_apply]
  rw [show piStep [[(2:ℝ)/3, 0, 0], [0, 2/3, 0], [0, 0, 0]] [] [0, 0, 1]
      = [0, 0, 0] by rw [piStep, mv_cov_001, deflate_nil, nv_000]]
  exact Function.iterate_fixed fix_cov_zero 119

/-- C6, counterexample: `varData` has four rows and two dimensions of
non-zero variance (the covariance diagonal is `(2/3, 2/3, 0)`), yet with
ambient draws `kernelStream` the first returned basis vector is the zero
vector (norm `0`, not `1`): the initial vector `[0, 0, 1]` lies in the
kernel of the covariance matrix, the next working vector is zero, and the
guard keeps it zero for all 120 iterations instead of substituting a fixed
unit vector. -/
theorem projector_basis_not_unit_counterexample :
    1 ≤ varData.length ∧
      ((covOf (centeredOf varData (meanOf varData (dimOf varData)))
          (dimOf varData) varData.length).getD 0 []).getD 0 0 ≠ 0 ∧
      ((covOf (centeredOf varData (meanOf varData (dimOf varData)))
          (dimOf varData) varData.length).getD 1 []).getD 1 0 ≠ 0 ∧
      normSq ((projectTo2D varData kernelStream).1.getD 0 []) = 0 := by
  have hdim : dimOf varData = 3 := by simp [varData, dimOf]
  have hlen : varData.length = 4 := by simp [varData]
  have hcov : covOf (centeredOf varData (meanOf varData (dimOf varData)))
      (dimOf varData) varData.length
      = [[2/3, 0, 0], [0, 2/3, 0], [0, 0, 0]] := by
    rw [hdim, hlen, mean_varData, centered_varData, cov_varData]
  refine ⟨by simp [varData], ?_, ?_, ?_⟩
  · rw [hcov]; norm_num
  · rw [hcov]; norm_num
  · have hinit1 : (List.range (dimOf varData)).map kernelStream = [0, 0, 1/2] := by
      rw [hdim]
      simp [kernelStream, List.range_succ]
    have hinit2 : (List.range (dimOf varData)).map
        (fun i => kernelStream (dimOf varData + i)) = [0, 0, 0] := by
      rw [hdim]
      simp [kernelStream, List.range_succ]
    rw [projectTo2D, hinit1, hinit2]
    rw [show varData = (⟨[1, 0, 0]⟩ : PNode)
        :: [⟨[-1, 0, 0]⟩, ⟨[0, 1, 0]⟩, ⟨[0, -1, 0]⟩] from rfl]
    simp only [projectCore, List.getD_cons_zero]
    rw [show ((⟨[1, 0, 0]⟩ : PNode)
        :: [⟨[-1, 0, 0]⟩, ⟨[0, 1, 0]⟩, ⟨[0, -1, 0]⟩]) = varData from rfl]
    rw [hdim, hlen, mean_varData, centered_varData, cov_varData]
    rw [first_varData]
    simp [normSq]


/-! ## C7 — label domains of the three strategies -/

theorem nearestGo_lt (v : Vec) :
    ∀ (cs : List Vec) (i best : ℕ) (bestD : ℚ) (n : ℕ),
      best < n → i + cs.length ≤ n → nearestGo v cs i best bestD < n
  | [], _, _, _, _, hb, _ => hb
  | c :: cs, i, best, bestD, n, hb, hi => by
    rw [nearestGo]
    by_cases hlt : sqDist v c < bestD
    · rw [if_pos hlt]
      refine nearestGo_lt v cs (i + 1) i _ n ?_ ?_
      · simp only [List.length_cons] at hi
        omega
      · simp only [List.length_cons] at hi
        omega
    · rw [if_neg hlt]
      refine nearestGo_lt v cs (i + 1) best _ n hb ?_
      simp only [List.length_cons] at hi
      omega

theorem nearestCluster_lt (cents : List Vec) (v : Vec) (h : cents ≠ []) :
    nearestCluster cents v < cents.length := by
  match cents with
  | [] => exact absurd rfl h
  | c :: cs =>
    rw [nearestCluster]
    exact nearestGo_lt v cs 1 0 _ (c :: cs).length (by simp) (by simp [Nat.add_comm])

theorem assignLabels_lt (vs cents : List Vec) (h : cents ≠ []) :
    ∀ l ∈ assignLabels vs cents, l < cents.length := by
  intro l hl
  obtain ⟨v, _, rfl⟩ := List.mem_map.mp hl
  exact nearestCluster_lt cents v h

theorem updateCentroids_length (vs : List Vec) (labels : List ℕ)
    (cents : List Vec) (d : ℕ) :
    (updateCentroids vs labels cents d).length = cents.length := by
  simp [updateCentroids]

theorem kmeansLoop_labels_lt (vs : List Vec) (d : ℕ) :
    ∀ (fuel : ℕ) (labels : List ℕ) (cents : List Vec) (iters : ℕ),
      cents ≠ [] → (∀ l ∈ labels, l < cents.length) →
      (∀ l ∈ (kmeansLoop vs d fuel labels cents iters).1,
          l < (kmeansLoop vs d fuel labels cents iters).2.1.length) ∧
        (kmeansLoop vs d fuel labels cents iters).2.1 ≠ []
  | 0, labels, cents, iters, hne, hl => ⟨hl, hne⟩
  | fuel + 1, labels, cents, iters, hne, hl => by
    rw [kmeansLoop]
    by_cases heq : assignLabels vs cents = labels
    · rw [if_pos heq]
      exact ⟨hl, hne⟩
    · rw [if_neg heq]
      refine kmeansLoop_labels_lt vs d fuel _ _ _ ?_ ?_
      · intro hco
        have := updateCentroids_length vs (assignLabels vs cents) cents d
        rw [hco] at this
        exact hne (List.length_eq_zero.mp this.symm)
      · intro l hlmem
        rw [updateCentroids_length]
        exact assignLabels_lt vs cents hne l hlmem

theorem foldl_set_mem (P : ℤ → Prop) :
    ∀ (ps : List (ℕ × ℤ)) (acc : List ℤ),
      (∀ a ∈ acc, P a) → (∀ p ∈ ps, P p.2) →
      ∀ x ∈ ps.foldl (fun acc p => acc.set p.1 p.2) acc, P x
  | [], acc, hacc, _, x, hx => hacc x hx
  | p :: ps, acc, hacc, hps, x, hx => by
    refine foldl_set_mem P ps (acc.set p.1 p.2) ?_ ?_ x hx
    · intro a ha
      rcases List.mem_or_eq_of_mem_set ha with ha2 | rfl
      · exact hacc a ha2
      · exact hps p (List.mem_cons_self _ _)
    · intro q hq
      exact hps q (List.mem_cons_of_mem _ hq)

theorem buildFullLabels_mem (total : ℕ) (indices : List ℕ) (labels : List ℤ)
    (x : ℤ) (hx : x ∈ buildFullLabels total indices labels) :
    x = -1 ∨ x ∈ labels := by
  refine foldl_set_mem (fun y => y = -1 ∨ y ∈ labels) (indices.zip labels) _ ?_ ?_ x hx
  · intro a ha
    exact Or.inl (List.eq_of_mem_replicate ha)
  · intro p hp
    exact Or.inr (List.of_mem_zip hp).2


theorem runKMeans_label_domain (data : List SemanticNode) (k : ℤ) (m : ℕ) :
    ∀ l ∈ (runKMeans data k m).labels,
      l = -1 ∨ (0 ≤ l ∧ l < ((runKMeans data k m).centroids.length : ℤ)) := by
  intro l hl
  unfold runKMeans at hl ⊢
  by_cases hd : data = []
  · subst hd
    simp at hl
  · rw [if_neg hd] at hl ⊢
    by_cases hv : (extractValidEmbeddings data).2.1 = [] ∨
        (extractValidEmbeddings data).2.2 = 0
    · rw [if_pos hv] at hl
      exact Or.inl (List.eq_of_mem_replicate hl)
    · rw [if_neg hv] at hl ⊢
      by_cases hc : pickGo (extractValidEmbeddings data).2.1
          (min k ((extractValidEmbeddings data).2.1.length : ℤ))
          (if (min k ((extractValidEmbeddings data).2.1.length : ℤ)) = 0 then 0
            else (extractValidEmbeddings data).2.1.length * 4) 1993 [] [] = []
      · rw [if_pos hc] at hl
        exact Or.inl (List.eq_of_mem_replicate hl)
      · rw [if_neg hc] at hl ⊢
        simp only at hl ⊢
        have hloop := kmeansLoop_labels_lt (extractValidEmbeddings data).2.1
          (extractValidEmbeddings data).2.2 m
          (List.replicate (extractValidEmbeddings data).2.1.length 0)
          (pickGo (extractValidEmbeddings data).2.1
            (min k ((extractValidEmbeddings data).2.1.length : ℤ))
            (if (min k ((extractValidEmbeddings data).2.1.length : ℤ)) = 0 then 0
              else (extractValidEmbeddings data).2.1.length * 4) 1993 [] []) 0
          hc
          (by
            intro x hx
            have := List.eq_of_mem_replicate hx
            subst this
            exact List.length_pos.mpr hc)
        rcases buildFullLabels_mem _ _ _ l hl with h1 | h1
        · exact Or.inl h1
        · rcases List.mem_map.mp h1 with ⟨x, hx, hxe⟩
          refine Or.inr ⟨?_, ?_⟩
          · rw [← hxe]
            exact Int.natCast_nonneg x
          · rw [← hxe]
            exact_mod_cast hloop.1 x hx


theorem mergeLoop_ne_nil (vectors : List Vec) (target : ℤ) (ht : 1 ≤ target) :
    ∀ (fuel : ℕ) (cl : List (List ℕ)), cl ≠ [] →
      mergeLoop vectors target fuel cl ≠ []
  | 0, cl, h => h
  | fuel + 1, cl, h => by
    rw [mergeLoop]
    by_cases hgt : target < (cl.length : ℤ)
    · rw [if_pos hgt]
      refine mergeLoop_ne_nil vectors target ht fuel _ ?_
      have hlen2 : 2 ≤ cl.length := by
        have h2 : 1 < cl.length := by exact_mod_cast lt_of_le_of_lt ht hgt
        omega
      intro hco
      have hlen := congrArg List.length hco
      rw [List.length_set, List.length_eraseIdx] at hlen
      simp only [List.length_nil] at hlen
      split at hlen <;> omega
    · rw [if_neg hgt]
      exact h

theorem foldl_set_const_mem (P : ℤ → Prop) (v : ℤ) (hv : P v) :
    ∀ (is : List ℕ) (acc : List ℤ), (∀ a ∈ acc, P a) →
      ∀ x ∈ is.foldl (fun acc2 idx => acc2.set idx v) acc, P x
  | [], acc, hacc, x, hx => hacc x hx
  | i :: is, acc, hacc, x, hx => by
    refine foldl_set_const_mem P v hv is (acc.set i v) ?_ x hx
    intro a ha
    rcases List.mem_or_eq_of_mem_set ha with ha2 | rfl
    · exact hacc a ha2
    · exact hv

theorem foldl_clusters_mem (P : ℤ → Prop) :
    ∀ (ps : List (ℕ × List ℕ)) (acc : List ℤ),
      (∀ a ∈ acc, P a) → (∀ p ∈ ps, P (p.1 : ℤ)) →
      ∀ x ∈ ps.foldl
        (fun acc p => p.2.foldl (fun acc2 idx => acc2.set idx (p.1 : ℤ)) acc) acc,
        P x
  | [], acc, hacc, _, x, hx => hacc x hx
  | p :: ps, acc, hacc, hps, x, hx => by
    refine foldl_clusters_mem P ps _ ?_ ?_ x hx
    · exact foldl_set_const_mem P (p.1 : ℤ) (hps p (List.mem_cons_self _ _)) p.2 acc hacc
    · intro q hq
      exact hps q (List.mem_cons_of_mem _ hq)

theorem agglomLabels_mem (n : ℕ) (clusters : List (List ℕ)) (hne : clusters ≠ [])
    (x : ℤ) (hx : x ∈ agglomLabels n clusters) :
    0 ≤ x ∧ x < (clusters.length : ℤ) := by
  refine foldl_clusters_mem (fun y => 0 ≤ y ∧ y < (clusters.length : ℤ))
    clusters.enum _ ?_ ?_ x hx
  · intro a ha
    have := List.eq_of_mem_replicate ha
    subst this
    refine ⟨le_refl 0, ?_⟩
    have : 0 < clusters.length := List.length_pos.mpr hne
    exact_mod_cast this
  · intro p hp
    have : clusters[p.1]? = some p.2 := List.mem_enum_iff_getElem?.mp hp
    have hlt : p.1 < clusters.length := by
      by_contra hco
      push_neg at hco
      rw [List.getElem?_eq_none hco] at this
      exact Option.noConfusion this
    exact ⟨Int.natCast_nonneg p.1, by exact_mod_cast hlt⟩

theorem runAgglomerative_label_domain (data : List SemanticNode) (t : ℤ) :
    ∀ l ∈ (runAgglomerative data t).labels,
      l = -1 ∨ (0 ≤ l ∧ l < ((runAgglomerative data t).centroids.length : ℤ)) := by
  intro l hl
  unfold runAgglomerative at hl ⊢
  by_cases hd : data = []
  · subst hd
    simp at hl
  · rw [if_neg hd] at hl ⊢
    by_cases hv : (extractValidEmbeddings data).2.1 = [] ∨
        (extractValidEmbeddings data).2.2 = 0
    · rw [if_pos hv] at hl
      exact Or.inl (List.eq_of_mem_replicate hl)
    · rw [if_neg hv] at hl ⊢
      by_cases ht : t < 1
      · rw [if_pos ht] at hl
        exact Or.inl (List.eq_of_mem_replicate hl)
      · rw [if_neg ht] at hl ⊢
        simp only at hl ⊢
        have hvne : (extractValidEmbeddings data).2.1 ≠ [] := by
          intro hco
          exact hv (Or.inl hco)
        have hcl0 : ((List.range (extractValidEmbeddings data).2.1.length).map
            (fun i => [i])) ≠ [] := by
          intro hco
          have hlen := congrArg List.length hco
          simp only [List.length_map, List.length_range, List.length_nil] at hlen
          exact hvne (List.length_eq_zero.mp hlen)
        have hclne := mergeLoop_ne_nil (extractValidEmbeddings data).2.1 t
          (by omega) (extractValidEmbeddings data).2.1.length _ hcl0
        rcases buildFullLabels_mem _ _ _ l hl with h1 | h1
        · exact Or.inl h1
        · have := agglomLabels_mem (extractValidEmbeddings data).2.1.length _
            hclne l h1
          refine Or.inr ⟨this.1, ?_⟩
          rw [List.length_map]
          exact this.2


/-- The DBSCAN loop invariant: `labels` and `visited` have length `n`,
every label entry is `-1` or a cluster id below `bound`, and every id
below `bound` labels at least one visited row. -/
def DbInv (n : ℕ) (bound : ℤ) (labels : List ℤ) (visited : List Bool) : Prop :=
  labels.length = n ∧ visited.length = n ∧
    (∀ l ∈ labels, l = -1 ∨ (0 ≤ l ∧ l < bound)) ∧
    (∀ c : ℤ, 0 ≤ c → c < bound →
      ∃ j, j < n ∧ labels.getD j 0 = c ∧ visited.getD j false = true)

theorem getD_set_ne (l : List ℤ) (i j : ℕ) (x : ℤ) (h : i ≠ j) :
    (l.set i x).getD j 0 = l.getD j 0 := by
  rw [List.getD_eq_getElem?_getD, List.getD_eq_getElem?_getD,
    List.getElem?_set_ne h]

theorem getD_set_self (l : List ℤ) (i : ℕ) (x : ℤ) (h : i < l.length) :
    (l.set i x).getD i 0 = x := by
  rw [List.getD_eq_getElem?_getD, List.getElem?_set_eq_of_lt x h]
  rfl

theorem getD_set_true_mono (v : List Bool) (i j : ℕ)
    (h : v.getD j false = true) : (v.set i true).getD j false = true := by
  have hj : j < v.length := by
    by_contra hco
    push_neg at hco
    rw [List.getD_eq_getElem?_getD, List.getElem?_eq_none hco] at h
    simp at h
  by_cases hij : i = j
  · subst hij
    rw [List.getD_eq_getElem?_getD, List.getElem?_set_eq_of_lt true hj]
    rfl
  · rw [List.getD_eq_getElem?_getD, List.getElem?_set_ne hij,
      ← List.getD_eq_getElem?_getD]
    exact h

/-- The conditional label write of the DBSCAN expansion preserves the
invariant, for a visited map of unchanged length that only gained `true`
entries. -/
theorem DbInv_write (n : ℕ) (b cid : ℤ) (labels : List ℤ)
    (visited visited2 : List Bool) (current : ℕ)
    (hinv : DbInv n b labels visited) (h0 : 0 ≤ cid) (hb : cid < b)
    (hvlen : visited2.length = n)
    (hmono : ∀ j, visited.getD j false = true → visited2.getD j false = true) :
    DbInv n b
      (if labels.getD current 0 = -1 then labels.set current cid else labels)
      visited2 := by
  obtain ⟨hlen, _, hdom, hwit⟩ := hinv
  by_cases hcur : labels.getD current 0 = -1
  · rw [if_pos hcur]
    refine ⟨by rw [List.length_set]; exact hlen, hvlen, ?_, ?_⟩
    · intro l hl
      rcases List.mem_or_eq_of_mem_set hl with hl2 | rfl
      · exact hdom l hl2
      · exact Or.inr ⟨h0, hb⟩
    · intro c hc0 hcb
      obtain ⟨j, hj, hje, hjv⟩ := hwit c hc0 hcb
      have hne : current ≠ j := by
        intro hco
        subst hco
        rw [hcur] at hje
        omega
      exact ⟨j, hj, by rw [getD_set_ne _ _ _ _ hne]; exact hje, hmono j hjv⟩
  · rw [if_neg hcur]
    refine ⟨hlen, hvlen, hdom, ?_⟩
    intro c hc0 hcb
    obtain ⟨j, hj, hje, hjv⟩ := hwit c hc0 hcb
    exact ⟨j, hj, hje, hmono j hjv⟩

theorem dbscanExpand_inv (vectors : List Vec) (eps : ℚ) (minPts : ℤ)
    (n : ℕ) (b cid : ℤ) (h0 : 0 ≤ cid) (hb : cid < b) :
    ∀ (fuel : ℕ) (seeds : List ℕ) (labels : List ℤ) (visited : List Bool),
      DbInv n b labels visited →
      DbInv n b
        (dbscanExpand vectors eps minPts cid fuel seeds (labels, visited)).1
        (dbscanExpand vectors eps minPts cid fuel seeds (labels, visited)).2
  | 0, _, labels, visited, hinv => hinv
  | fuel + 1, [], labels, visited, hinv => hinv
  | fuel + 1, current :: rest, labels, visited, hinv => by
    rw [dbscanExpand]
    by_cases hv : visited.getD current false
    · rw [if_pos hv]
      exact dbscanExpand_inv vectors eps minPts n b cid h0 hb fuel rest _ _
        (DbInv_write n b cid labels visited visited current hinv h0 hb
          hinv.2.1 (fun j hj => hj))
    · rw [if_neg hv]
      refine dbscanExpand_inv vectors eps minPts n b cid h0 hb fuel _ _ _ ?_
      exact DbInv_write n b cid labels visited (visited.set current true) current
        hinv h0 hb (by rw [List.length_set]; exact hinv.2.1)
        (getD_set_true_mono visited current)

theorem dbscanOuter_inv (vectors : List Vec) (eps : ℚ) (minPts : ℤ) (n : ℕ) :
    ∀ (idxs : List ℕ) (labels : List ℤ) (visited : List Bool) (cid : ℤ),
      (∀ i ∈ idxs, i < n) → DbInv n cid labels visited → 0 ≤ cid →
      DbInv n
        (dbscanOuter vectors eps minPts idxs (labels, visited, cid)).2.2
        (dbscanOuter vectors eps minPts idxs (labels, visited, cid)).1
        (dbscanOuter vectors eps minPts idxs (labels, visited, cid)).2.1 ∧
      0 ≤ (dbscanOuter vectors eps minPts idxs (labels, visited, cid)).2.2
  | [], labels, visited, cid, _, hinv, h0 => ⟨hinv, h0⟩
  | i :: rest, labels, visited, cid, hidx, hinv, h0 => by
    rw [dbscanOuter]
    by_cases hv : visited.getD i false
    · rw [if_pos hv]
      exact dbscanOuter_inv vectors eps minPts n rest labels visited cid
        (fun j hj => hidx j (List.mem_cons_of_mem _ hj)) hinv h0
    · rw [if_neg hv]
      obtain ⟨hlen, hvlen, hdom, hwit⟩ := hinv
      by_cases hq : ((regionQuery vectors eps i).length : ℤ) < minPts
      · rw [if_pos hq]
        refine dbscanOuter_inv vectors eps minPts n rest _ _ cid
          (fun j hj => hidx j (List.mem_cons_of_mem _ hj)) ?_ h0
        refine ⟨by rw [List.length_set]; exact hlen,
          by rw [List.length_set]; exact hvlen, ?_, ?_⟩
        · intro l hl
          rcases List.mem_or_eq_of_mem_set hl with hl2 | rfl
          · exact hdom l hl2
          · exact Or.inl rfl
        · intro c hc0 hcb
          obtain ⟨j, hj, hje, hjv⟩ := hwit c hc0 hcb
          have hne : i ≠ j := by
            intro hco
            subst hco
            rw [hjv] at hv
            exact hv rfl
          exact ⟨j, hj, by rw [getD_set_ne _ _ _ _ hne]; exact hje,
            getD_set_true_mono visited i j hjv⟩
      · rw [if_neg hq]
        have hstart : DbInv n (cid + 1) (labels.set i cid)
            (visited.set i true) := by
          refine ⟨by rw [List.length_set]; exact hlen,
            by rw [List.length_set]; exact hvlen, ?_, ?_⟩
          · intro l hl
            rcases List.mem_or_eq_of_mem_set hl with hl2 | rfl
            · rcases hdom l hl2 with h1 | h1
              · exact Or.inl h1
              · exact Or.inr ⟨h1.1, by omega⟩
            · exact Or.inr ⟨h0, by omega⟩
          · intro c hc0 hcb
            by_cases hcc : c = cid
            · subst hcc
              refine ⟨i, hidx i (List.mem_cons_self _ _), ?_, ?_⟩
              · rw [getD_set_self]
                rw [hlen]
                exact hidx i (List.mem_cons_self _ _)
              · rw [List.getD_eq_getElem?_getD, List.getElem?_set_eq_of_lt true
                  (by rw [hvlen]; exact hidx i (List.mem_cons_self _ _))]
                rfl
            · have hcb2 : c < cid := by omega
              obtain ⟨j, hj, hje, hjv⟩ := hwit c hc0 hcb2
              have hne : i ≠ j := by
                intro hco
                subst hco
                rw [hjv] at hv
                exact hv rfl
              exact ⟨j, hj, by rw [getD_set_ne _ _ _ _ hne]; exact hje,
                getD_set_true_mono visited i j hjv⟩
        have hexp := dbscanExpand_inv vectors eps minPts n (cid + 1) cid h0
          (by omega) (vectors.length * vectors.length + vectors.length + 1)
          (regionQuery vectors eps i).reverse (labels.set i cid)
          (visited.set i true) hstart
        exact dbscanOuter_inv vectors eps minPts n rest _ _ (cid + 1)
          (fun j hj => hidx j (List.mem_cons_of_mem _ hj)) hexp (by omega)


theorem evGo_lengths : ∀ (ps : List (ℕ × SemanticNode)) (dim : ℕ),
    (evGo ps dim).1.length = (evGo ps dim).2.1.length
  | [], _ => rfl
  | (idx, item) :: rest, dim => by
    cases hemb : item.embedding with
    | none =>
      simp only [evGo, hemb]
      exact evGo_lengths rest dim
    | some emb =>
      by_cases hnil : emb = []
      · simp only [evGo, hemb, if_pos hnil]
        exact evGo_lengths rest dim
      · simp only [evGo, hemb, if_neg hnil, List.length_cons]
        rw [evGo_lengths rest _]

theorem evGo_indices_sublist : ∀ (ps : List (ℕ × SemanticNode)) (dim : ℕ),
    (evGo ps dim).1.Sublist (ps.map Prod.fst)
  | [], _ => List.Sublist.refl _
  | (idx, item) :: rest, dim => by
    cases hemb : item.embedding with
    | none =>
      simp only [evGo, hemb, List.map_cons]
      exact (evGo_indices_sublist rest dim).cons idx
    | some emb =>
      by_cases hnil : emb = []
      · simp only [evGo, hemb, if_pos hnil, List.map_cons]
        exact (evGo_indices_sublist rest dim).cons idx
      · simp only [evGo, hemb, if_neg hnil, List.map_cons]
        exact (evGo_indices_sublist rest _).cons₂ idx

theorem extract_indices_nodup (data : List SemanticNode) :
    (extractValidEmbeddings data).1.Nodup := by
  refine List.Nodup.sublist (evGo_indices_sublist data.enum 0) ?_
  rw [List.enum_map_fst]
  exact List.nodup_range _

theorem foldl_set_length : ∀ (ps : List (ℕ × ℤ)) (acc : List ℤ),
    (ps.foldl (fun a p => a.set p.1 p.2) acc).length = acc.length
  | [], _ => rfl
  | p :: ps, acc => by
    rw [List.foldl_cons, foldl_set_length ps, List.length_set]

theorem buildFullLabels_length (total : ℕ) (indices : List ℕ)
    (labels : List ℤ) : (buildFullLabels total indices labels).length = total := by
  rw [buildFullLabels, foldl_set_length, List.length_replicate]

theorem foldl_set_getD_not_mem :
    ∀ (ps : List (ℕ × ℤ)) (acc : List ℤ) (i : ℕ), i ∉ ps.map Prod.fst →
      (ps.foldl (fun a p => a.set p.1 p.2) acc).getD i 0 = acc.getD i 0
  | [], _, _, _ => rfl
  | p :: ps, acc, i, h => by
    rw [List.foldl_cons,
      foldl_set_getD_not_mem ps _ i (fun hco => h (List.mem_cons_of_mem _ hco))]
    refine getD_set_ne _ _ _ _ ?_
    intro hco
    exact h (hco ▸ List.mem_cons_self _ _)

theorem foldl_set_getD :
    ∀ (ps : List (ℕ × ℤ)) (acc : List ℤ) (i : ℕ) (v : ℤ), (i, v) ∈ ps →
      (ps.map Prod.fst).Nodup → i < acc.length →
      (ps.foldl (fun a p => a.set p.1 p.2) acc).getD i 0 = v
  | [], _, _, _, h, _, _ => absurd h (List.not_mem_nil _)
  | p :: ps, acc, i, v, h, hnd, hi => by
    rw [List.map_cons, List.nodup_cons] at hnd
    rcases List.mem_cons.mp h with rfl | h2
    · rw [List.foldl_cons, foldl_set_getD_not_mem ps _ i hnd.1]
      exact getD_set_self acc i v hi
    · rw [List.foldl_cons]
      exact foldl_set_getD ps _ i v h2 hnd.2 (by rw [List.length_set]; exact hi)

theorem dbscanCentroids_length (vectors : List Vec) (d : ℕ) (labels : List ℤ)
    (cid : ℕ)
    (hmem : ∀ c : ℕ, c < cid →
      ∃ j, j < vectors.length ∧ labels.getD j 0 = (c : ℤ)) :
    (dbscanCentroids vectors d labels cid).length = cid := by
  rw [dbscanCentroids]
  have key : ∀ (cs : List ℕ) (acc : List Vec),
      (∀ c ∈ cs, c < cid) →
      (cs.foldl (fun acc (c : ℕ) =>
        let members := (List.range vectors.length).filter
          (fun i => labels.getD i 0 = (c : ℤ))
        if members = [] then acc
        else acc ++ [(List.range d).map (fun j =>
          (members.map (fun i => (vectors.getD i []).getD j 0)).sum /
            (members.length : ℚ))]) acc).length = acc.length + cs.length := by
    intro cs
    induction cs with
    | nil => intro acc _; simp
    | cons c cs ih =>
      intro acc hcs
      rw [List.foldl_cons]
      have hc : c < cid := hcs c (List.mem_cons_self _ _)
      obtain ⟨j, hj, hje⟩ := hmem c hc
      have hmembers : (List.range vectors.length).filter
          (fun i => labels.getD i 0 = (c : ℤ)) ≠ [] := by
        intro hco
        have : j ∈ (List.range vectors.length).filter
            (fun i => labels.getD i 0 = (c : ℤ)) := by
          rw [List.mem_filter]
          exact ⟨List.mem_range.mpr hj, by simp only [decide_eq_true_eq]; exact hje⟩
        rw [hco] at this
        exact List.not_mem_nil j this
      simp only [hmembers, if_false]
      rw [ih _ (fun x hx => hcs x (List.mem_cons_of_mem _ hx))]
      simp only [List.length_append, List.length_cons, List.length_nil]
      omega
  rw [key (List.range cid) [] (fun c hc => List.mem_range.mp hc)]
  simp


theorem extract_indices_lt (data : List SemanticNode) :
    ∀ i ∈ (extractValidEmbeddings data).1, i < data.length := by
  intro i hi
  obtain ⟨nd, l, hmem, _, _⟩ := (evGo_mem_indices data.enum 0 i).mp hi
  have hget := List.mem_enum_iff_getElem?.mp hmem
  by_contra hco
  push_neg at hco
  rw [List.getElem?_eq_none hco] at hget
  exact Option.noConfusion hget

theorem getD_mem (l : List ℤ) (i : ℕ) (h : i < l.length) :
    l.getD i 0 ∈ l := by
  rw [List.getD_eq_getElem?_getD, List.getElem?_eq_getElem h]
  exact List.getElem_mem h

theorem runDbscan_label_domain (data : List SemanticNode) (eps : ℚ)
    (minPts : ℤ) :
    (∀ l ∈ (runDbscan data eps minPts).labels,
        l = -1 ∨ (0 ≤ l ∧ l < ((runDbscan data eps minPts).centroids.length : ℤ))) ∧
      ∀ c : ℤ, 0 ≤ c → c < ((runDbscan data eps minPts).centroids.length : ℤ) →
        c ∈ (runDbscan data eps minPts).labels := by
  unfold runDbscan
  by_cases hd : data = []
  · subst hd
    constructor
    · intro l hl
      simp at hl
    · intro c hc0 hcb
      simp at hcb
      omega
  · rw [if_neg hd]
    by_cases hv : (extractValidEmbeddings data).2.1 = [] ∨
        (extractValidEmbeddings data).2.2 = 0
    · rw [if_pos hv]
      constructor
      · intro l hl
        exact Or.inl (List.eq_of_mem_replicate hl)
      · intro c hc0 hcb
        simp at hcb
        omega
    · rw [if_neg hv]
      simp only
      set n := (extractValidEmbeddings data).2.1.length with hn
      have hinv0 : DbInv n 0 (List.replicate n (-1)) (List.replicate n false) := by
        refine ⟨List.length_replicate n _, List.length_replicate n _, ?_, ?_⟩
        · intro l hl
          exact Or.inl (List.eq_of_mem_replicate hl)
        · intro c hc0 hcb
          omega
      have hout := dbscanOuter_inv (extractValidEmbeddings data).2.1 eps minPts n
        (List.range n) (List.replicate n (-1)) (List.replicate n false) 0
        (fun i hi => List.mem_range.mp hi) hinv0 (le_refl 0)
      obtain ⟨⟨hlen, hvlen, hdom, hwit⟩, h0⟩ := hout
      set st := dbscanOuter (extractValidEmbeddings data).2.1 eps minPts
        (List.range n) (List.replicate n (-1), List.replicate n false, 0) with hst
      have hclen : (dbscanCentroids (extractValidEmbeddings data).2.1
          (extractValidEmbeddings data).2.2 st.1 st.2.2.toNat).length
          = st.2.2.toNat := by
        refine dbscanCentroids_length _ _ _ _ ?_
        intro c hc
        have hcz : (c : ℤ) < st.2.2 := by omega
        obtain ⟨j, hj, hje, _⟩ := hwit (c : ℤ) (Int.natCast_nonneg c) hcz
        exact ⟨j, by rw [← hn]; exact hj, hje⟩
      constructor
      · intro l hl
        rcases buildFullLabels_mem _ _ _ l hl with h1 | h1
        · exact Or.inl h1
        · rcases hdom l h1 with h2 | h2
          · exact Or.inl h2
          · refine Or.inr ⟨h2.1, ?_⟩
            rw [hclen]
            omega
      · intro c hc0 hcb
        rw [hclen] at hcb
        have hcz : c < st.2.2 := by omega
        obtain ⟨j, hj, hje, _⟩ := hwit c hc0 hcz
        have hjn : j < n := hj
        have hillen : (extractValidEmbeddings data).1.length = n :=
          evGo_lengths data.enum 0
        have hstlen : st.1.length = n := hlen
        have hzlen : ((extractValidEmbeddings data).1.zip st.1).length = n := by
          rw [List.length_zip, hillen, hstlen, Nat.min_self]
        have hjz : j < ((extractValidEmbeddings data).1.zip st.1).length := by
          rw [hzlen]; exact hjn
        have hpair : ((extractValidEmbeddings data).1.zip st.1).get ⟨j, hjz⟩
            = ((extractValidEmbeddings data).1.get ⟨j, by rw [hillen]; exact hjn⟩,
               st.1.get ⟨j, by rw [hstlen]; exact hjn⟩) := by
          simp [List.getElem_zip]
        have hmempair : ((extractValidEmbeddings data).1.get
              ⟨j, by rw [hillen]; exact hjn⟩,
            st.1.get ⟨j, by rw [hstlen]; exact hjn⟩)
            ∈ (extractValidEmbeddings data).1.zip st.1 := by
          rw [← hpair]
          exact List.get_mem _ _ _
        have hstj : st.1.get ⟨j, by rw [hstlen]; exact hjn⟩ = c := by
          rw [List.getD_eq_getElem?_getD,
            List.getElem?_eq_getElem (by rw [hstlen]; exact hjn)] at hje
          simpa using hje
        have hidxlt : (extractValidEmbeddings data).1.get
            ⟨j, by rw [hillen]; exact hjn⟩ < data.length :=
          extract_indices_lt data _ (List.get_mem _ _ _)
        have hnodup : (((extractValidEmbeddings data).1.zip st.1).map
            Prod.fst).Nodup := by
          rw [List.map_fst_zip _ _ (by rw [hillen, hstlen])]
          exact extract_indices_nodup data
        have hgetD := foldl_set_getD ((extractValidEmbeddings data).1.zip st.1)
          (List.replicate data.length (-1))
          ((extractValidEmbeddings data).1.get ⟨j, by rw [hillen]; exact hjn⟩)
          c (hstj ▸ hmempair) hnodup
          (by rw [List.length_replicate]; exact hidxlt)
        rw [← buildFullLabels] at hgetD
        have hfull_len : (buildFullLabels data.length
            (extractValidEmbeddings data).1 st.1).length = data.length :=
          buildFullLabels_length _ _ _
        rw [← hgetD]
        refine getD_mem _ _ ?_
        rw [hfull_len]
        exact hidxlt


/-- C7: for each clustering strategy, every returned label is `-1` or a
non-negative id strictly below the number of returned centroids; for
DBSCAN, a non-negative id occurs among the labels **iff** it lies in the
prefix `0..m-1` of the returned centroid count — every discovered cluster
id has at least one member. -/
theorem cluster_label_domain (data : List SemanticNode) (k t : ℤ) (m : ℕ)
    (eps : ℚ) (minPts : ℤ) :
    (∀ l ∈ (runKMeans data k m).labels,
        l = -1 ∨ (0 ≤ l ∧ l < ((runKMeans data k m).centroids.length : ℤ))) ∧
      (∀ l ∈ (runAgglomerative data t).labels,
        l = -1 ∨ (0 ≤ l ∧ l < ((runAgglomerative data t).centroids.length : ℤ))) ∧
      (∀ l ∈ (runDbscan data eps minPts).labels,
        l = -1 ∨ (0 ≤ l ∧ l < ((runDbscan data eps minPts).centroids.length : ℤ))) ∧
      ∀ c : ℤ, 0 ≤ c →
        (c ∈ (runDbscan data eps minPts).labels ↔
          c < ((runDbscan data eps minPts).centroids.length : ℤ)) := by
  refine ⟨runKMeans_label_domain data k m, runAgglomerative_label_domain data t,
    (runDbscan_label_domain data eps minPts).1, ?_⟩
  intro c hc0
  constructor
  · intro hmem
    rcases (runDbscan_label_domain data eps minPts).1 c hmem with h1 | h1
    · omega
    · exact h1.2
  · exact (runDbscan_label_domain data eps minPts).2 c hc0

/-- C7 witness: the theorem instantiated on a concrete one-record batch,
at the concrete label `0` for K-Means and the concrete id `0` for DBSCAN. -/
theorem cluster_label_domain_witness :
    ((0 : ℤ) = -1 ∨ (0 ≤ (0 : ℤ) ∧
        0 < ((runKMeans [mkNode 0 [0]] 1 40).centroids.length : ℤ))) ∧
      ((0 : ℤ) ∈ (runDbscan [mkNode 0 [0]] 1 1).labels ↔
        0 < ((runDbscan [mkNode 0 [0]] 1 1).centroids.length : ℤ)) :=
  ⟨(cluster_label_domain [mkNode 0 [0]] 1 1 40 1 1).1 0
      (by with_unfolding_all decide),
    (cluster_label_domain [mkNode 0 [0]] 1 1 40 1 1).2.2.2 0 (by norm_num)⟩


/-! ## C5 — K-Means inertia monotonicity -/

theorem nearestGo_spec (v : Vec) (full : List Vec) :
    ∀ (cs : List Vec) (i best : ℕ) (bestD : ℚ),
      (∀ k, k < cs.length → cs.getD k [] = full.getD (i + k) []) →
      sqDist v (full.getD best []) ≤ bestD →
      sqDist v (full.getD (nearestGo v cs i best bestD) []) ≤ bestD ∧
        ∀ k, k < cs.length →
          sqDist v (full.getD (nearestGo v cs i best bestD) []) ≤
            sqDist v (full.getD (i + k) [])
  | [], i, best, bestD, _, hbest => ⟨hbest, fun k hk => absurd hk (by simp)⟩
  | c :: cs, i, best, bestD, hcs, hbest => by
    rw [nearestGo]
    by_cases hlt : sqDist v c < bestD
    · rw [if_pos hlt]
      have hc0 : c = full.getD i [] := by
        have := hcs 0 (by simp)
        simpa using this
      have hrec := nearestGo_spec v full cs (i + 1) i (sqDist v c)
        (fun k hk => by
          have := hcs (k + 1) (by simpa using Nat.succ_lt_succ hk)
          simpa [Nat.add_assoc, Nat.add_comm 1 k] using this)
        (le_of_eq (by rw [← hc0]))
      refine ⟨le_trans hrec.1 (le_of_lt hlt), ?_⟩
      intro k hk
      match k with
      | 0 =>
        have hi0 : full.getD (i + 0) [] = c := by rw [Nat.add_zero, ← hc0]
        rw [hi0]
        exact hrec.1
      | k + 1 =>
        have := hrec.2 k (by simpa using Nat.lt_of_succ_lt_succ hk)
        simpa [Nat.add_assoc, Nat.add_comm 1 k] using this
    · rw [if_neg hlt]
      push_neg at hlt
      have hrec := nearestGo_spec v full cs (i + 1) best bestD
        (fun k hk => by
          have := hcs (k + 1) (by simpa using Nat.succ_lt_succ hk)
          simpa [Nat.add_assoc, Nat.add_comm 1 k] using this)
        hbest
      refine ⟨hrec.1, ?_⟩
      intro k hk
      match k with
      | 0 =>
        have hc0 : c = full.getD i [] := by
          have := hcs 0 (by simp)
          simpa using this
        have : sqDist v (full.getD (nearestGo v cs (i + 1) best bestD) []) ≤ bestD :=
          hrec.1
        calc sqDist v (full.getD (nearestGo v cs (i + 1) best bestD) []) ≤ bestD :=
              this
          _ ≤ sqDist v c := hlt
          _ = sqDist v (full.getD (i + 0) []) := by rw [Nat.add_zero, ← hc0]
      | k + 1 =>
        have := hrec.2 k (by simpa using Nat.lt_of_succ_lt_succ hk)
        simpa [Nat.add_assoc, Nat.add_comm 1 k] using this

theorem nearestCluster_min (cents : List Vec) (v : Vec) (c : ℕ)
    (hc : c < cents.length) :
    sqDist v (cents.getD (nearestCluster cents v) []) ≤
      sqDist v (cents.getD c []) := by
  match cents with
  | [] => simp at hc
  | c0 :: cs =>
    rw [nearestCluster]
    have hspec := nearestGo_spec v (c0 :: cs) cs 1 0 (sqDist v c0)
      (fun k hk => by rw [Nat.add_comm 1 k]; simp)
      (by simp)
    match c with
    | 0 => simpa using hspec.1
    | k + 1 =>
      have := hspec.2 k (by simpa using Nat.lt_of_succ_lt_succ hc)
      simpa [Nat.add_comm 1 k] using this

theorem inertia_assign_le (C : List Vec) :
    ∀ (vs : List Vec) (L : List ℕ), L.length = vs.length →
      (∀ l ∈ L, l < C.length) →
      inertiaOf vs (assignLabels vs C) C ≤ inertiaOf vs L C
  | [], L, hlen, hL => by simp [inertiaOf, assignLabels]
  | v :: vs, [], hlen, hL => by simp at hlen
  | v :: vs, l :: L, hlen, hL => by
    simp only [inertiaOf, assignLabels, List.map_cons, List.zip_cons_cons,
      List.sum_cons]
    have h1 : sqDist v (C.getD (nearestCluster C v) []) ≤ sqDist v (C.getD l []) :=
      nearestCluster_min C v l (hL l (List.mem_cons_self _ _))
    have h2 := inertia_assign_le C vs L (by simpa using hlen)
      (fun x hx => hL x (List.mem_cons_of_mem _ hx))
    simp only [inertiaOf, assignLabels] at h2
    exact add_le_add h1 h2

theorem list_finset_sum_comm (ws : List Vec) (s : Finset ℕ) (f : Vec → ℕ → ℚ) :
    (ws.map (fun w => ∑ j ∈ s, f w j)).sum = ∑ j ∈ s, (ws.map (fun w => f w j)).sum := by
  induction ws with
  | nil => simp
  | cons w ws ih =>
    simp only [List.map_cons, List.sum_cons, ih]
    rw [← Finset.sum_add_distrib]

theorem scalar_shift (c μ : ℚ) :
    ∀ xs : List ℚ,
      (xs.map (fun x => (x - c) ^ 2)).sum
        = (xs.map (fun x => (x - μ) ^ 2)).sum
          + 2 * (μ - c) * (xs.sum - (xs.length : ℚ) * μ)
          + (xs.length : ℚ) * (μ - c) ^ 2
  | [] => by simp
  | x :: xs => by
    simp only [List.map_cons, List.sum_cons, List.length_cons, scalar_shift c μ xs]
    push_cast
    ring

theorem scalar_mean_min (xs : List ℚ) (hne : xs ≠ []) (c : ℚ) :
    (xs.map (fun x => (x - xs.sum / (xs.length : ℚ)) ^ 2)).sum
      ≤ (xs.map (fun x => (x - c) ^ 2)).sum := by
  have hn : (xs.length : ℚ) ≠ 0 := by
    simp [List.length_eq_zero]
    exact hne
  rw [scalar_shift c (xs.sum / (xs.length : ℚ)) xs]
  have hzero : xs.sum - (xs.length : ℚ) * (xs.sum / (xs.length : ℚ)) = 0 := by
    field_simp
  rw [hzero]
  have : 0 ≤ (xs.length : ℚ) * (xs.sum / (xs.length : ℚ) - c) ^ 2 :=
    mul_nonneg (by positivity) (sq_nonneg _)
  linarith


theorem range_map_getD (d : ℕ) (f : ℕ → ℚ) (j : ℕ) (hj : j < d) :
    ((List.range d).map f).getD j 0 = f j := by
  rw [List.getD_eq_getElem?_getD, List.getElem?_map, List.getElem?_range hj]
  rfl

theorem range_map_getD_vec (d : ℕ) (f : ℕ → ℚ) (j : ℕ) (hj : j < d) :
    ((List.range d).map f).getD j 0 = f j := range_map_getD d f j hj

theorem sqDist_finset (a b : Vec) (d : ℕ) (ha : a.length = d) :
    sqDist a b = ∑ j ∈ Finset.range d, (a.getD j 0 - b.getD j 0) ^ 2 := by
  rw [sqDist, ha]

/-- The componentwise mean written by the centroid-update pass. -/
def memberMean (d : ℕ) (ws : List Vec) : Vec :=
  (List.range d).map (fun j =>
    (ws.map (fun w => w.getD j 0)).sum / (ws.length : ℚ))

theorem memberMean_getD (d : ℕ) (ws : List Vec) (j : ℕ) (hj : j < d) :
    (memberMean d ws).getD j 0
      = (ws.map (fun w => w.getD j 0)).sum / (ws.length : ℚ) := by
  rw [memberMean]
  rw [List.getD_eq_getElem?_getD, List.getElem?_map, List.getElem?_range hj]
  rfl

theorem vec_mean_min (d : ℕ) (ws : List Vec) (hne : ws ≠ [])
    (hwd : ∀ w ∈ ws, w.length = d) (c : Vec) :
    (ws.map (fun w => sqDist w (memberMean d ws))).sum
      ≤ (ws.map (fun w => sqDist w c)).sum := by
  have hrw : ∀ x : Vec, (ws.map (fun w => sqDist w x)).sum
      = ∑ j ∈ Finset.range d, (ws.map (fun w => (w.getD j 0 - x.getD j 0) ^ 2)).sum := by
    intro x
    rw [show ws.map (fun w => sqDist w x)
        = ws.map (fun w => ∑ j ∈ Finset.range d, (w.getD j 0 - x.getD j 0) ^ 2) from
      List.map_congr_left (fun w hw => sqDist_finset w x d (hwd w hw))]
    exact list_finset_sum_comm ws (Finset.range d) _
  rw [hrw, hrw]
  refine Finset.sum_le_sum ?_
  intro j hj
  have hmm := memberMean_getD d ws j (Finset.mem_range.mp hj)
  have key := scalar_mean_min (ws.map (fun w => w.getD j 0))
    (by
      intro hco
      exact hne (List.map_eq_nil_iff.mp hco))
    (c.getD j 0)
  rw [List.length_map] at key
  have hmaps : ∀ y : ℚ, (ws.map (fun w => w.getD j 0)).map (fun x => (x - y) ^ 2)
      = ws.map (fun w => (w.getD j 0 - y) ^ 2) := by
    intro y
    rw [List.map_map]
    rfl
  rw [hmaps, hmaps] at key
  rw [← hmm] at key
  exact key

theorem zip_sum_group (g : Vec → ℕ → ℚ) (m : ℕ) :
    ∀ ps : List (Vec × ℕ), (∀ p ∈ ps, p.2 < m) →
      (ps.map (fun p => g p.1 p.2)).sum
        = ∑ c ∈ Finset.range m,
            ((ps.filter (fun p => p.2 = c)).map (fun p => g p.1 c)).sum
  | [], _ => by simp
  | p :: ps, h => by
    simp only [List.map_cons, List.sum_cons]
    rw [zip_sum_group g m ps (fun q hq => h q (List.mem_cons_of_mem _ hq))]
    have hsplit : ∀ c ∈ Finset.range m,
        (((p :: ps).filter (fun q => q.2 = c)).map (fun q => g q.1 c)).sum
          = ((ps.filter (fun q => q.2 = c)).map (fun q => g q.1 c)).sum
            + (if p.2 = c then g p.1 c else 0) := by
      intro c _
      by_cases hpc : p.2 = c
      · rw [List.filter_cons_of_pos (by simp [hpc])]
        simp [hpc]
        ring
      · rw [List.filter_cons_of_neg (by simp [hpc])]
        simp [hpc]
    rw [Finset.sum_congr rfl hsplit, Finset.sum_add_distrib]
    rw [Finset.sum_ite_eq (Finset.range m) p.2 (fun c => g p.1 c)]
    rw [if_pos (Finset.mem_range.mpr (h p (List.mem_cons_self _ _)))]
    ring


theorem updateCentroids_getD (vs : List Vec) (L : List ℕ) (C : List Vec)
    (d : ℕ) (c : ℕ) (hc : c < C.length) :
    (updateCentroids vs L C d).getD c []
      = (if (((vs.zip L).filter (fun q => q.2 = c)).map (fun q => q.1)).length = 0
          then C.getD c []
          else memberMean d (((vs.zip L).filter (fun q => q.2 = c)).map
            (fun q => q.1))) := by
  rw [updateCentroids, List.getD_eq_getElem?_getD, List.getElem?_map]
  rw [List.getElem?_enum]
  rw [List.getElem?_eq_getElem hc]
  simp only [Option.map_some, Option.getD_some]
  rw [show C[c] = C.getD c [] from by
    rw [List.getD_eq_getElem?_getD, List.getElem?_eq_getElem hc]; rfl]
  rfl

theorem updateCentroids_mem_length (vs : List Vec) (L : List ℕ) (C : List Vec)
    (d : ℕ) (hcd : ∀ c ∈ C, c.length = d) :
    ∀ c ∈ updateCentroids vs L C d, c.length = d := by
  intro c hcmem
  obtain ⟨p, hp, rfl⟩ := List.mem_map.mp hcmem
  by_cases hz : (((vs.zip L).filter (fun q => q.2 = p.1)).map (fun q => q.1)).length = 0
  · rw [if_pos hz]
    have hp2 : p.2 ∈ C := by
      have := List.mem_enum_iff_getElem?.mp hp
      have hlt : p.1 < C.length := by
        by_contra hco
        push_neg at hco
        rw [List.getElem?_eq_none hco] at this
        exact Option.noConfusion this
      rw [List.getElem?_eq_getElem hlt] at this
      have := Option.some.inj this
      rw [← this]
      exact List.getElem_mem hlt
    exact hcd p.2 hp2
  · rw [if_neg hz]
    simp

theorem inertia_update_le (vs : List Vec) (L : List ℕ) (C : List Vec) (d : ℕ)
    (hL : ∀ l ∈ L, l < C.length) (hvd : ∀ v ∈ vs, v.length = d) :
    inertiaOf vs L (updateCentroids vs L C d) ≤ inertiaOf vs L C := by
  rw [inertiaOf, inertiaOf]
  have hzr : ∀ p ∈ vs.zip L, p.2 < C.length :=
    fun p hp => hL p.2 (List.of_mem_zip hp).2
  rw [zip_sum_group (fun w c => sqDist w ((updateCentroids vs L C d).getD c []))
    C.length (vs.zip L) hzr]
  rw [zip_sum_group (fun w c => sqDist w (C.getD c [])) C.length (vs.zip L) hzr]
  refine Finset.sum_le_sum ?_
  intro c hcr
  have hc : c < C.length := Finset.mem_range.mp hcr
  rw [updateCentroids_getD vs L C d c hc]
  by_cases hz : (((vs.zip L).filter (fun q => q.2 = c)).map (fun q => q.1)).length = 0
  · rw [if_pos hz]
  · rw [if_neg hz]
    have hmem_ne : ((vs.zip L).filter (fun q => q.2 = c)).map (fun q => q.1) ≠ [] := by
      intro hco
      rw [hco] at hz
      exact hz rfl
    have hmem_d : ∀ w ∈ ((vs.zip L).filter (fun q => q.2 = c)).map (fun q => q.1),
        w.length = d := by
      intro w hw
      obtain ⟨p, hp, rfl⟩ := List.mem_map.mp hw
      exact hvd p.1 (List.of_mem_zip (List.mem_of_mem_filter hp)).1
    have key := vec_mean_min d _ hmem_ne hmem_d (C.getD c [])
    rw [List.map_map, List.map_map] at key
    exact key

theorem kmeansLoop_inertia (vs : List Vec) (d : ℕ)
    (hvd : ∀ v ∈ vs, v.length = d) :
    ∀ (fuel : ℕ) (L : List ℕ) (C : List Vec) (iters : ℕ),
      C ≠ [] → L.length = vs.length → (∀ l ∈ L, l < C.length) →
      inertiaOf vs (kmeansLoop vs d fuel L C iters).1
          (kmeansLoop vs d fuel L C iters).2.1
        ≤ inertiaOf vs L C
  | 0, L, C, iters, _, _, _ => le_refl _
  | fuel + 1, L, C, iters, hC, hlen, hL => by
    rw [kmeansLoop]
    by_cases heq : assignLabels vs C = L
    · rw [if_pos heq]
    · rw [if_neg heq]
      have hC2 : updateCentroids vs (assignLabels vs C) C d ≠ [] := by
        intro hco
        have := updateCentroids_length vs (assignLabels vs C) C d
        rw [hco] at this
        exact hC (List.length_eq_zero.mp this.symm)
      have hL2 : ∀ l ∈ assignLabels vs C,
          l < (updateCentroids vs (assignLabels vs C) C d).length := by
        intro l hl
        rw [updateCentroids_length]
        exact assignLabels_lt vs C hC l hl
      have hrec := kmeansLoop_inertia vs d hvd fuel (assignLabels vs C)
        (updateCentroids vs (assignLabels vs C) C d) (iters + 1) hC2
        (by rw [assignLabels, List.length_map]) hL2
      refine le_trans hrec (le_trans ?_ (inertia_assign_le C vs L hlen hL))
      exact inertia_update_le vs (assignLabels vs C) C d
        (fun l hl => assignLabels_lt vs C hC l hl) hvd


/-- C5, amended: for the *exact* (pre-rounding) inertia the claim holds —
one assign/update iteration never increases it, the loop's final inertia is
at most the starting inertia, and with at least one iteration of fuel it is
at most the inertia of the initial assignment against the initial
centroids.  The *reported* inertia is the exact value rounded to three
decimals (`Number(inertia.toFixed(3))`), which stays within `1/2000` of the
exact value but can exceed the initial-assignment inertia (see the
counterexample). -/
theorem kmeans_inertia_monotone (vs : List Vec) (d : ℕ) (L : List ℕ)
    (C : List Vec) (fuel iters : ℕ)
    (hvd : ∀ v ∈ vs, v.length = d) (hC : C ≠ [])
    (hlen : L.length = vs.length) (hL : ∀ l ∈ L, l < C.length) :
    (inertiaOf vs (assignLabels vs C)
        (updateCentroids vs (assignLabels vs C) C d) ≤ inertiaOf vs L C) ∧
      (inertiaOf vs (kmeansLoop vs d fuel L C iters).1
          (kmeansLoop vs d fuel L C iters).2.1 ≤ inertiaOf vs L C) ∧
      (1 ≤ fuel →
        inertiaOf vs (kmeansLoop vs d fuel L C iters).1
            (kmeansLoop vs d fuel L C iters).2.1
          ≤ inertiaOf vs (assignLabels vs C) C) ∧
      ∀ q : ℚ, q - 1 / 2000 ≤ roundTo3 q ∧ roundTo3 q ≤ q + 1 / 2000 := by
  refine ⟨?_, ?_, ?_, ?_⟩
  · exact le_trans
      (inertia_update_le vs (assignLabels vs C) C d
        (assignLabels_lt vs C hC) hvd)
      (inertia_assign_le C vs L hlen hL)
  · exact kmeansLoop_inertia vs d hvd fuel L C iters hC hlen hL
  · intro hfuel
    match fuel, hfuel with
    | f + 1, _ =>
      rw [kmeansLoop]
      by_cases heq : assignLabels vs C = L
      · rw [if_pos heq, heq]
      · rw [if_neg heq]
        refine le_trans (kmeansLoop_inertia vs d hvd f _ _ _ ?_ ?_ ?_) ?_
        · intro hco
          have := updateCentroids_length vs (assignLabels vs C) C d
          rw [hco] at this
          exact hC (List.length_eq_zero.mp this.symm)
        · rw [assignLabels, List.length_map]
        · intro l hl
          rw [updateCentroids_length]
          exact assignLabels_lt vs C hC l hl
        · exact inertia_update_le vs (assignLabels vs C) C d
            (assignLabels_lt vs C hC) hvd
  · intro q
    have h1 : (⌊q * 1000 + 1 / 2⌋ : ℚ) ≤ q * 1000 + 1 / 2 := Int.floor_le _
    have h2 : q * 1000 + 1 / 2 - 1 < (⌊q * 1000 + 1 / 2⌋ : ℚ) :=
      Int.sub_one_lt_floor _
    rw [roundTo3]
    constructor
    · rw [le_div_iff₀ (by norm_num : (0 : ℚ) < 1000)]
      linarith
    · rw [div_le_iff₀ (by norm_num : (0 : ℚ) < 1000)]
      linarith

/-- C5 witness: the amended theorem on the two-point batch `{[0], [1]}`
with one centroid `[[0]]`, starting labels `[0, 0]` and one unit of fuel. -/
theorem kmeans_inertia_monotone_witness :
    inertiaOf [[0], [(1 : ℚ)]] (kmeansLoop [[0], [(1 : ℚ)]] 1 1 [0, 0] [[0]] 0).1
        (kmeansLoop [[0], [(1 : ℚ)]] 1 1 [0, 0] [[0]] 0).2.1
      ≤ inertiaOf [[0], [(1 : ℚ)]] (assignLabels [[0], [(1 : ℚ)]] [[0]]) [[0]] :=
  (kmeans_inertia_monotone [[0], [(1 : ℚ)]] 1 [0, 0] [[0]] 1 0
    (by with_unfolding_all decide) (by with_unfolding_all decide)
    (by with_unfolding_all decide) (by with_unfolding_all decide)).2.2.1
    (by norm_num)

/-- C5, counterexample: the *reported* (rounded) final inertia can exceed
the exact inertia of the initial assignment against the initial centroids.
On `{[0], [0.031]}` with `k = 1` the seeded draw picks row `0`, so the
initial (and final) centroid is `[0]`; the exact inertia is
`0.031² = 961/1000000 = 0.000961`, but `toFixed(3)` reports `0.001`,
which is strictly larger. -/
theorem kmeans_reported_inertia_exceeds_initial_counterexample :
    pickGo [[0], [(31 : ℚ) / 1000]] 1 8 1993 [] [] = [[0]] ∧
      (runKMeans [mkNode 0 [0], mkNode 1 [31 / 1000]] 1).inertia
        = some (1 / 1000) ∧
      inertiaOf [[0], [(31 : ℚ) / 1000]]
        (assignLabels [[0], [(31 : ℚ) / 1000]] [[0]]) [[0]] = 961 / 1000000 ∧
      ((961 : ℚ) / 1000000 < 1 / 1000) := by
  refine ⟨?_, ?_, ?_, ?_⟩
  · with_unfolding_all decide
  · with_unfolding_all decide
  · norm_num [inertiaOf, assignLabels, nearestCluster, nearestGo, sqDist]
  · norm_num

end AegisPanel















